import Mathlib

/-!
Verification development for the llamakv key-value store.

The Python modules of the repository are shallowly embedded as Lean
definitions:

* Python strings are modelled as lists of characters (so that length and
  splitting coincide with Python semantics), bytes objects as lists of
  `Fin 256`, timestamps as integers.
* `llamakv.core.key.Key` and its canonicalisation, `llamakv.core.value`
  with its six envelope classes and their dict (de)serialisation,
  `llamakv.cache.lru.LRUCache`, `llamakv.cache.ttl.TTLCache`,
  `llamakv.core.store.KVStore` (over the default `MemoryBackend` and
  `LRUCache`), `llamakv.distributed.client.DistributedClient` and the
  propagate route of `llamakv.distributed.server.DistributedServer` are
  translated function by function.
* The Python standard-library codecs the repository delegates to
  (`json.dumps`/`json.loads`, `pickle.dumps`/`pickle.loads`, `str()` on
  floats) are external collaborators; they appear as parameters bundled in
  `PyLibs`, and theorems that depend on their documented round-trip
  contract take that contract as a hypothesis.
* Python dictionaries keyed by `Key` objects are modelled as association
  lists in insertion order (CPython dicts preserve insertion order);
  membership and lookup use the `Key.__eq__` relation, which compares
  canonical strings.
* Methods that can raise on some input (`items[0]` on an empty list,
  `OrderedDict.popitem` on an empty dict, `Value.from_dict` on a bad
  payload) are embedded as `Option`-returning functions, `none` marking
  the raise.
-/

/-- Python `str` values, modelled as their character lists. -/
abbrev PyStr := List Char

/-- A single byte of a Python `bytes` object. -/
abbrev PyByte := Fin 256

/-- Lower-case hexadecimal digit for a value below 16, as produced by
`bytes.hex()`. -/
def hexDigitChar (n : Nat) : Char :=
  if n < 10 then Char.ofNat (48 + n) else Char.ofNat (97 + (n - 10))

/-- The two hexadecimal digits of one byte, most significant first. -/
def byteHex (b : PyByte) : List Char :=
  [hexDigitChar (b.val / 16), hexDigitChar (b.val % 16)]

/-- Embedding of `bytes.hex()`: concatenation of the per-byte digit pairs. -/
def bytesToHex (bs : List PyByte) : PyStr :=
  (bs.map byteHex).flatten

/-- Value of one hexadecimal digit character, accepting the upper- and
lower-case letters `bytes.fromhex` accepts; `none` on any other
character. -/
def hexDigitVal (c : Char) : Option (Fin 16) :=
  if h : 48 ≤ c.toNat ∧ c.toNat ≤ 57 then some ⟨c.toNat - 48, by omega⟩
  else if h2 : 97 ≤ c.toNat ∧ c.toNat ≤ 102 then some ⟨c.toNat - 87, by omega⟩
  else if h3 : 65 ≤ c.toNat ∧ c.toNat ≤ 70 then some ⟨c.toNat - 55, by omega⟩
  else none

/-- Embedding of `bytes.fromhex` on strings without whitespace: parses the
digits two at a time, failing (`ValueError`) on an odd-length string or a
non-digit. -/
def hexToBytes : PyStr → Option (List PyByte)
  | [] => some []
  | [_] => none
  | c1 :: c2 :: rest =>
    match hexDigitVal c1, hexDigitVal c2, hexToBytes rest with
    | some h, some l, some bs => some (⟨h.val * 16 + l.val, by omega⟩ :: bs)
    | _, _, _ => none

theorem hexDigitVal_hexDigitChar :
    ∀ n : Fin 16, hexDigitVal (hexDigitChar n.val) = some n := by
  decide
theorem hexToBytes_bytesToHex (bs : List PyByte) :
    hexToBytes (bytesToHex bs) = some bs := by
  induction bs with
  | nil => rfl
  | cons b rest ih =>
    have hdiv : b.val / 16 < 16 := by omega
    have h1 := hexDigitVal_hexDigitChar ⟨b.val / 16, hdiv⟩
    have hmod : b.val % 16 < 16 := by omega
    have h2 := hexDigitVal_hexDigitChar ⟨b.val % 16, hmod⟩
    show hexToBytes (hexDigitChar (b.val / 16) :: hexDigitChar (b.val % 16) :: bytesToHex rest) = _
    rw [hexToBytes]
    rw [h1, h2, ih]
    simp only [Option.some.injEq, List.cons.injEq, and_true]
    apply Fin.ext
    show b.val / 16 * 16 + b.val % 16 = b.val
    omega
/-! ### Keys (`llamakv.core.key.Key`)

A key's raw value is any hashable Python object; the kinds exercised by
the repository (strings, ints, bools, bytes) are modelled explicitly.
The canonical string is not stored but recomputed by `Key.keyStr`,
which agrees with the `_key_str` computed in `Key.__init__`. -/

inductive RawKey where
  | rstr (s : PyStr)
  | rint (n : Int)
  | rbool (b : Bool)
  | rbytes (bs : List PyByte)
deriving DecidableEq, Repr

/-- Embedding of `Key._normalize_value`: bytes render as hex, simple types
via `str`. -/
def normalizeValue : RawKey → PyStr
  | .rstr s => s
  | .rint n => (toString n).toList
  | .rbool b => if b then "True".toList else "False".toList
  | .rbytes bs => bytesToHex bs

/-- A `Key` object: raw value plus optional namespace (the field is named
`ns` because `namespace` is reserved in Lean). -/
structure Key where
  value : RawKey
  ns : Option PyStr
deriving DecidableEq, Repr

/-- The canonical string `_key_str`; an empty namespace string is falsy in
Python and is treated like a missing namespace. -/
def Key.keyStr (k : Key) : PyStr :=
  match k.ns with
  | some n => if n = [] then normalizeValue k.value else n ++ ':' :: normalizeValue k.value
  | none => normalizeValue k.value

/-- Embedding of `Key.__eq__`: canonical strings are compared. -/
def Key.keyEq (k1 k2 : Key) : Bool :=
  k1.keyStr == k2.keyStr

/-- Split at the first colon, embedding the combination of
`":" in key_str` with `key_str.split(":", 1)`: returns the part before
the first colon and the rest, or `none` when there is no colon. -/
def splitFirstColon : PyStr → Option (PyStr × PyStr)
  | [] => none
  | c :: cs =>
    if c = ':' then some ([], cs)
    else match splitFirstColon cs with
      | some (pre, post) => some (c :: pre, post)
      | none => none

/-- Embedding of `Key.from_string`. -/
def Key.fromString (s : PyStr) : Key :=
  match splitFirstColon s with
  | some (pre, post) => { value := .rstr post, ns := some pre }
  | none => { value := .rstr s, ns := none }

theorem splitFirstColon_eq_some {s pre post : PyStr}
    (h : splitFirstColon s = some (pre, post)) : s = pre ++ ':' :: post := by
  induction s generalizing pre with
  | nil => simp [splitFirstColon] at h
  | cons c cs ih =>
    rw [splitFirstColon] at h
    split at h
    · rename_i hc
      injection h with h
      injection h with ha hb
      subst hc; rw [← ha, ← hb]; rfl
    · rename_i hc
      cases hsp : splitFirstColon cs with
      | none => rw [hsp] at h; exact absurd h (by simp)
      | some pr =>
        obtain ⟨pre', post'⟩ := pr
        rw [hsp] at h
        simp only [Option.some.injEq, Prod.mk.injEq] at h
        obtain ⟨ha, hb⟩ := h
        subst hb
        rw [← ha, show (c :: pre') ++ ':' :: post' = c :: (pre' ++ ':' :: post') from rfl,
          ← ih hsp]
theorem splitFirstColon_eq_none {s : PyStr}
    (h : ':' ∉ s) : splitFirstColon s = none := by
  induction s with
  | nil => rfl
  | cons c cs ih =>
    simp only [List.mem_cons, not_or] at h
    rw [splitFirstColon, if_neg (Ne.symm h.1), ih h.2]
theorem splitFirstColon_isSome {s : PyStr}
    (h : ':' ∈ s) : (splitFirstColon s).isSome := by
  induction s with
  | nil => simp at h
  | cons c cs ih =>
    rw [splitFirstColon]
    split
    · simp
    · rename_i hc
      rcases List.mem_cons.mp h with h1 | h2
      · exact absurd h1.symm hc
      · have hs := ih h2
        rcases hopt : splitFirstColon cs with _ | ⟨pre, post⟩
        · rw [hopt] at hs; exact absurd hs (by simp)
        · simp

theorem keyEq_iff {k1 k2 : Key} : Key.keyEq k1 k2 = true ↔ k1.keyStr = k2.keyStr := by
  simp [Key.keyEq]

/-- C7 counterexample: the claim fails on the code at concrete keys. First,
a key with explicit namespace "b" and raw value "a" is EQUAL under
`Key.__eq__` to the key with raw value "b:a" and no namespace (both
canonicalise to "b:a"), contradicting the claimed distinguishability.
Second, for the key with raw value "a" (colon-free) and namespace ":",
`Key.from_string(str(k))` does not reconstruct an equal key. -/
theorem claim_C7_counterexample :
    Key.keyEq { value := .rstr "a".toList, ns := some "b".toList }
        { value := .rstr "b:a".toList, ns := none } = true ∧
    Key.keyEq
        (Key.fromString (Key.keyStr { value := .rstr "a".toList, ns := some ":".toList }))
        { value := .rstr "a".toList, ns := some ":".toList } = false := by
  constructor
  · decide
  · decide

/-- C7 (amended): two Key objects are equal exactly when their canonical
strings match; for every key whose raw value's normalised form contains no
colon and whose canonical string does not begin with a colon,
`Key.from_string(str(k))` reconstructs an equal key; and a key built with an
explicit namespace is NOT distinguishable from a key whose raw value embeds
the namespace prefix literally: `Key("a", ns="b") == Key("b:a")`. -/
theorem claim_C7_key_canonical (k k1 k2 : Key)
    (hval : ':' ∉ normalizeValue k.value)
    (hhead : k.keyStr.head? ≠ some ':') :
    (Key.keyEq k1 k2 = true ↔ k1.keyStr = k2.keyStr) ∧
    Key.keyEq (Key.fromString k.keyStr) k = true ∧
    Key.keyEq { value := .rstr "a".toList, ns := some "b".toList }
        { value := .rstr "b:a".toList, ns := none } = true := by
  refine ⟨keyEq_iff, ?_, by decide⟩
  rw [keyEq_iff]
  rcases hns : k.ns with _ | n
  · have hks : k.keyStr = normalizeValue k.value := by
      simp [Key.keyStr, hns]
    rw [hks, Key.fromString, splitFirstColon_eq_none hval]
    simp [Key.keyStr, normalizeValue]
  · by_cases hn : n = []
    · have hks : k.keyStr = normalizeValue k.value := by
        simp [Key.keyStr, hns, hn]
      rw [hks, Key.fromString, splitFirstColon_eq_none hval]
      simp [Key.keyStr, normalizeValue]
    · have hks : k.keyStr = n ++ ':' :: normalizeValue k.value := by
        simp [Key.keyStr, hns, hn]
      have hmem : ':' ∈ k.keyStr := by
        rw [hks]
        exact List.mem_append_right _ (List.mem_cons_self _ _)
      have hsome := splitFirstColon_isSome hmem
      rcases hsp : splitFirstColon k.keyStr with _ | ⟨pre, post⟩
      · rw [hsp] at hsome; exact absurd hsome (by simp)
      · have hdec := splitFirstColon_eq_some hsp
        have hpre : pre ≠ [] := by
          intro hp
          subst hp
          rw [hdec] at hhead
          exact hhead rfl
        rw [Key.fromString, hsp]
        simp only [Key.keyStr, if_neg hpre]
        exact hdec.symm

/-- C7 witness: the amended theorem applied at concrete keys with a
namespaced key k whose raw value is colon-free and whose canonical string
starts with the namespace. -/
theorem claim_C7_key_canonical_witness :
    (Key.keyEq { value := RawKey.rstr "v".toList, ns := none }
        { value := RawKey.rstr "v".toList, ns := none } = true ↔
      Key.keyStr { value := RawKey.rstr "v".toList, ns := none } =
        Key.keyStr { value := RawKey.rstr "v".toList, ns := none }) ∧
    Key.keyEq
        (Key.fromString (Key.keyStr { value := RawKey.rstr "v".toList, ns := some "x".toList }))
        { value := RawKey.rstr "v".toList, ns := some "x".toList } = true ∧
    Key.keyEq { value := RawKey.rstr "a".toList, ns := some "b".toList }
        { value := RawKey.rstr "b:a".toList, ns := none } = true :=
  claim_C7_key_canonical
    { value := RawKey.rstr "v".toList, ns := some "x".toList }
    { value := RawKey.rstr "v".toList, ns := none }
    { value := RawKey.rstr "v".toList, ns := none }
    (by decide) (by decide)

/-! ### Value envelopes (`llamakv.core.value`)

The six concrete `Value` subclasses are modelled by one structure whose
payload constructor determines the class. The types `F`, `J` and `P` stand
for Python float objects, JSON-serialisable objects and arbitrary
picklable objects; the library codecs acting on them are bundled in
`PyLibs`. -/

/-- The payload of a value envelope; the constructor fixes which of the six
`Value` subclasses the envelope belongs to. -/
inductive PyPayload (F J P : Type) where
  | pstr (s : PyStr)
  | pint (n : Int)
  | pfloat (x : F)
  | pbytes (bs : List PyByte)
  | pjson (j : J)
  | ppickle (o : P)
deriving DecidableEq

/-- A `Value` envelope: payload plus `_created_at`, `_ttl` and
`_metadata` (metadata values rendered as strings). -/
structure PyValue (F J P : Type) where
  payload : PyPayload F J P
  createdAt : Int
  ttl : Option Int
  metadata : List (PyStr × PyStr)
deriving DecidableEq

/-- Embedding of `Value.expiry`. -/
def PyValue.expiry {F J P : Type} (v : PyValue F J P) : Option Int :=
  v.ttl.map (fun t => v.createdAt + t)

/-- Embedding of `Value.is_expired`, with the current time passed
explicitly. -/
def PyValue.isExpired {F J P : Type} (v : PyValue F J P) (now : Int) : Bool :=
  match v.ttl with
  | none => false
  | some t => now > v.createdAt + t

/-- The six concrete `Value` classes. -/
inductive ValueClass where
  | stringV | intV | floatV | bytesV | jsonV | pickleV
deriving DecidableEq, Repr

/-- The `__name__` of each `Value` class. -/
def className : ValueClass → PyStr
  | .stringV => "StringValue".toList
  | .intV => "IntValue".toList
  | .floatV => "FloatValue".toList
  | .bytesV => "BytesValue".toList
  | .jsonV => "JsonValue".toList
  | .pickleV => "PickleValue".toList

/-- The class an envelope with the given payload belongs to. -/
def payloadClass {F J P : Type} : PyPayload F J P → ValueClass
  | .pstr _ => .stringV
  | .pint _ => .intV
  | .pfloat _ => .floatV
  | .pbytes _ => .bytesV
  | .pjson _ => .jsonV
  | .ppickle _ => .pickleV

/-- The Python object stored under the "value" entry of `Value.to_dict()`:
a string for most classes, the payload itself for ints and floats. -/
inductive SerForm (F : Type) where
  | s (cs : PyStr)
  | i (n : Int)
  | f (x : F)

/-- The Python standard-library codecs the repository delegates to,
treated as external collaborators: `json.dumps`/`json.loads`,
`pickle.dumps`/`pickle.loads`, `str()` on floats, and the embedding of a
`Value` instance into the type of arbitrary picklable objects (used when
`KVStore.set` is handed an already-built envelope and auto-detects
`PickleValue`). -/
structure PyLibs (F J P : Type) where
  jsonDumps : J → PyStr
  jsonLoads : PyStr → Option J
  pickleDumps : P → List PyByte
  pickleLoads : List PyByte → Option P
  floatStr : F → PyStr
  wrapValue : PyValue F J P → P

/-- Embedding of the per-class `_serialize_value` methods. -/
def serializeValue {F J P : Type} (L : PyLibs F J P) : PyPayload F J P → SerForm F
  | .pstr s => .s s
  | .pint n => .i n
  | .pfloat x => .f x
  | .pbytes bs => .s (bytesToHex bs)
  | .pjson j => .s (L.jsonDumps j)
  | .ppickle o => .s (bytesToHex (L.pickleDumps o))

/-- Embedding of the per-class `_deserialize_value` classmethods; `none`
is a raised `ValueError` (bad hex, bad JSON, bad pickle) or a payload of
the wrong runtime shape. -/
def deserializeValue {F J P : Type} (L : PyLibs F J P) :
    ValueClass → SerForm F → Option (PyPayload F J P)
  | .stringV, .s s => some (.pstr s)
  | .intV, .i n => some (.pint n)
  | .floatV, .f x => some (.pfloat x)
  | .bytesV, .s s => (hexToBytes s).map .pbytes
  | .jsonV, .s s => (L.jsonLoads s).map .pjson
  | .pickleV, .s s => (hexToBytes s).bind (fun bs => (L.pickleLoads bs).map .ppickle)
  | _, _ => none

/-- The dictionary produced by `Value.to_dict()`. -/
structure ValueDict (F : Type) where
  value : SerForm F
  type : PyStr
  createdAt : Int
  ttl : Option Int
  metadata : List (PyStr × PyStr)

/-- Embedding of `Value.to_dict`. -/
def toDict {F J P : Type} (L : PyLibs F J P) (v : PyValue F J P) : ValueDict F :=
  { value := serializeValue L v.payload
    type := className (payloadClass v.payload)
    createdAt := v.createdAt
    ttl := v.ttl
    metadata := v.metadata }

/-- Embedding of `Value.from_dict` invoked on class `cls`: checks the type
tag, deserialises the payload and restores `created_at`, `ttl` and
`metadata`; `none` is a raised `ValueError`. -/
def fromDict {F J P : Type} (L : PyLibs F J P) (cls : ValueClass) (d : ValueDict F) :
    Option (PyValue F J P) :=
  if d.type = className cls then
    (deserializeValue L cls d.value).map
      (fun p => { payload := p, createdAt := d.createdAt, ttl := d.ttl, metadata := d.metadata })
  else none

/-- C6: for every value envelope of every type tag, deserialising its
serialised structural form restores the payload, the type tag, the
creation timestamp, the TTL and the metadata without loss:
`from_dict(to_dict(v))` invoked on the envelope's own class returns an
envelope componentwise equal to `v`, under the documented round-trip
contracts of the `json` and `pickle` library codecs. -/
theorem claim_C6_value_roundtrip {F J P : Type} (L : PyLibs F J P)
    (hjson : ∀ j, L.jsonLoads (L.jsonDumps j) = some j)
    (hpickle : ∀ o, L.pickleLoads (L.pickleDumps o) = some o)
    (v : PyValue F J P) :
    fromDict L (payloadClass v.payload) (toDict L v) = some v := by
  obtain ⟨p, c, t, m⟩ := v
  cases p with
  | pstr s => simp [fromDict, toDict, deserializeValue, serializeValue, payloadClass]
  | pint n => simp [fromDict, toDict, deserializeValue, serializeValue, payloadClass]
  | pfloat x => simp [fromDict, toDict, deserializeValue, serializeValue, payloadClass]
  | pbytes bs =>
    simp [fromDict, toDict, deserializeValue, serializeValue, payloadClass,
      hexToBytes_bytesToHex]
  | pjson j =>
    simp [fromDict, toDict, deserializeValue, serializeValue, payloadClass, hjson]
  | ppickle o =>
    simp [fromDict, toDict, deserializeValue, serializeValue, payloadClass,
      hexToBytes_bytesToHex, hpickle]

/-- C6 witness: the round trip evaluated with trivially invertible library
codecs and a concrete bytes envelope. -/
theorem claim_C6_value_roundtrip_witness :
    fromDict
      { jsonDumps := id, jsonLoads := some, pickleDumps := id, pickleLoads := some,
        floatStr := fun _ : Unit => [], wrapValue := fun _ => [] }
      (payloadClass (PyPayload.pbytes (F := Unit) (J := PyStr) (P := List PyByte)
        [(7 : Fin 256), (255 : Fin 256)]))
      (toDict
        { jsonDumps := id, jsonLoads := some, pickleDumps := id, pickleLoads := some,
          floatStr := fun _ : Unit => [], wrapValue := fun _ => [] }
        { payload := PyPayload.pbytes [(7 : Fin 256), (255 : Fin 256)],
          createdAt := 100, ttl := some 30, metadata := [("k".toList, "w".toList)] }) =
    some
      { payload := PyPayload.pbytes [(7 : Fin 256), (255 : Fin 256)],
        createdAt := 100, ttl := some 30, metadata := [("k".toList, "w".toList)] } :=
  claim_C6_value_roundtrip _ (fun _ => rfl) (fun _ => rfl) _

/-! ### Python dictionaries keyed by Key objects

CPython dictionaries preserve insertion order; assignment to a present key
replaces the value in place keeping the originally stored key object, and
lookup and membership use `__hash__`/`__eq__`, i.e. canonical-string
equality of keys. They are modelled as association lists. -/

/-- Dictionary lookup (`d[k]` / `d.get(k)`), comparing canonical strings. -/
def lookupKey {V : Type} (k : Key) : List (Key × V) → Option V
  | [] => none
  | (k', v) :: rest => if k'.keyStr = k.keyStr then some v else lookupKey k rest

/-- Dictionary deletion (`del d[k]` on a present key, a no-op otherwise). -/
def eraseKey {V : Type} (k : Key) : List (Key × V) → List (Key × V)
  | [] => []
  | (k', v) :: rest => if k'.keyStr = k.keyStr then rest else (k', v) :: eraseKey k rest

/-- Dictionary assignment (`d[k] = v`): replaces the value of a present key
in place (keeping the stored key object), else appends at the end. -/
def insertKey {V : Type} (k : Key) (v : V) : List (Key × V) → List (Key × V)
  | [] => [(k, v)]
  | (k', v') :: rest =>
    if k'.keyStr = k.keyStr then (k', v) :: rest else (k', v') :: insertKey k v rest

/-- Well-formedness of a dict model: distinct canonical key strings. -/
def keysNodup {V : Type} (l : List (Key × V)) : Prop :=
  (l.map (fun e => e.1.keyStr)).Nodup

theorem lookupKey_isSome_iff {V : Type} {k : Key} {l : List (Key × V)} :
    (lookupKey k l).isSome ↔ ∃ e ∈ l, e.1.keyStr = k.keyStr := by
  induction l with
  | nil => simp [lookupKey]
  | cons e rest ih =>
    obtain ⟨k', v⟩ := e
    by_cases h : k'.keyStr = k.keyStr
    · simp [lookupKey, h]
    · simp [lookupKey, h, ih]

theorem lookupKey_eq_none_iff {V : Type} {k : Key} {l : List (Key × V)} :
    lookupKey k l = none ↔ ∀ e ∈ l, e.1.keyStr ≠ k.keyStr := by
  rw [← Option.not_isSome_iff_eq_none, lookupKey_isSome_iff]
  simp

theorem lookupKey_mem {V : Type} {k : Key} {l : List (Key × V)} {v : V}
    (h : lookupKey k l = some v) : ∃ k', (k', v) ∈ l ∧ k'.keyStr = k.keyStr := by
  induction l with
  | nil => simp [lookupKey] at h
  | cons e rest ih =>
    obtain ⟨k', v'⟩ := e
    by_cases hk : k'.keyStr = k.keyStr
    · simp only [lookupKey, if_pos hk, Option.some.injEq] at h
      exact ⟨k', by simp [h], hk⟩
    · simp only [lookupKey, if_neg hk] at h
      obtain ⟨k0, hmem, hks⟩ := ih h
      exact ⟨k0, List.mem_cons_of_mem _ hmem, hks⟩

theorem lookupKey_of_mem {V : Type} {k : Key} {v : V} {l : List (Key × V)}
    (hnd : keysNodup l) (hmem : (k, v) ∈ l) : lookupKey k l = some v := by
  induction l with
  | nil => simp at hmem
  | cons e rest ih =>
    obtain ⟨k', v'⟩ := e
    rw [keysNodup, List.map_cons, List.nodup_cons] at hnd
    rcases List.mem_cons.mp hmem with heq | htail
    · obtain ⟨h1, h2⟩ := Prod.mk.injEq .. ▸ heq
      injection heq with h1 h2
      subst h1; subst h2
      simp [lookupKey]
    · have hne : k'.keyStr ≠ k.keyStr := by
        intro hcontra
        exact hnd.1 (hcontra ▸ List.mem_map_of_mem (fun e => e.1.keyStr) htail)
      simp only [lookupKey, if_neg hne]
      exact ih hnd.2 htail

/-- Decomposition of a successful lookup: the dict splits around the unique
entry whose canonical string matches, and erasing the key removes exactly
that entry. -/
theorem lookupKey_decomp {V : Type} {k : Key} {v : V} {l : List (Key × V)}
    (h : lookupKey k l = some v) :
    ∃ k0 pre post, l = pre ++ (k0, v) :: post ∧ k0.keyStr = k.keyStr ∧
      eraseKey k l = pre ++ post ∧ ∀ e ∈ pre, e.1.keyStr ≠ k.keyStr := by
  induction l with
  | nil => simp [lookupKey] at h
  | cons e rest ih =>
    obtain ⟨k', v'⟩ := e
    by_cases hk : k'.keyStr = k.keyStr
    · simp only [lookupKey, if_pos hk, Option.some.injEq] at h
      subst h
      exact ⟨k', [], rest, rfl, hk, by simp [eraseKey, hk], by simp⟩
    · simp only [lookupKey, if_neg hk] at h
      obtain ⟨k0, pre, post, hl, hks, her, hpre⟩ := ih h
      refine ⟨k0, (k', v') :: pre, post, by simp [hl], hks, ?_, ?_⟩
      · simp only [eraseKey, if_neg hk, her, List.cons_append]
      · intro e he
        rcases List.mem_cons.mp he with heq | htail
        · subst heq; exact hk
        · exact hpre e htail

theorem eraseKey_of_absent {V : Type} {k : Key} {l : List (Key × V)}
    (h : lookupKey k l = none) : eraseKey k l = l := by
  induction l with
  | nil => rfl
  | cons e rest ih =>
    obtain ⟨k', v'⟩ := e
    rw [lookupKey_eq_none_iff] at h
    have hk : k'.keyStr ≠ k.keyStr := h (k', v') (by simp)
    rw [eraseKey, if_neg hk, ih]
    rw [lookupKey_eq_none_iff]
    intro e he
    exact h e (List.mem_cons_of_mem _ he)

theorem insertKey_of_absent {V : Type} {k : Key} {v : V} {l : List (Key × V)}
    (h : lookupKey k l = none) : insertKey k v l = l ++ [(k, v)] := by
  induction l with
  | nil => rfl
  | cons e rest ih =>
    obtain ⟨k', v'⟩ := e
    rw [lookupKey_eq_none_iff] at h
    have hk : k'.keyStr ≠ k.keyStr := h (k', v') (by simp)
    rw [insertKey, if_neg hk, List.cons_append, ih]
    rw [lookupKey_eq_none_iff]
    intro e he
    exact h e (List.mem_cons_of_mem _ he)

theorem lookupKey_append {V : Type} (k : Key) (l1 l2 : List (Key × V)) :
    lookupKey k (l1 ++ l2) =
      match lookupKey k l1 with
      | some v => some v
      | none => lookupKey k l2 := by
  induction l1 with
  | nil => simp [lookupKey]
  | cons e rest ih =>
    obtain ⟨k', v'⟩ := e
    by_cases hk : k'.keyStr = k.keyStr
    · simp [lookupKey, hk]
    · simp [lookupKey, hk, ih]

theorem lookupKey_eraseKey_self {V : Type} {k : Key} {l : List (Key × V)}
    (hnd : keysNodup l) : lookupKey k (eraseKey k l) = none := by
  induction l with
  | nil => rfl
  | cons e rest ih =>
    obtain ⟨k', v'⟩ := e
    rw [keysNodup, List.map_cons, List.nodup_cons] at hnd
    by_cases hk : k'.keyStr = k.keyStr
    · rw [eraseKey, if_pos hk, lookupKey_eq_none_iff]
      intro e he hc
      exact hnd.1 (hk ▸ hc ▸ List.mem_map_of_mem (fun e => e.1.keyStr) he)
    · rw [eraseKey, if_neg hk, lookupKey, if_neg hk]
      exact ih hnd.2

theorem lookupKey_eraseKey_ne {V : Type} {k k' : Key} {l : List (Key × V)}
    (h : k'.keyStr ≠ k.keyStr) : lookupKey k' (eraseKey k l) = lookupKey k' l := by
  induction l with
  | nil => rfl
  | cons e rest ih =>
    obtain ⟨k0, v0⟩ := e
    by_cases hk : k0.keyStr = k.keyStr
    · rw [eraseKey, if_pos hk, lookupKey, if_neg (by rw [hk]; exact fun hc => h hc.symm)]
    · rw [eraseKey, if_neg hk, lookupKey, lookupKey]
      split
      · rfl
      · exact ih

theorem eraseKey_sublist {V : Type} (k : Key) (l : List (Key × V)) :
    (eraseKey k l).Sublist l := by
  induction l with
  | nil => simp [eraseKey]
  | cons e rest ih =>
    obtain ⟨k', v'⟩ := e
    by_cases hk : k'.keyStr = k.keyStr
    · rw [eraseKey, if_pos hk]
      exact List.sublist_cons_self _ _
    · rw [eraseKey, if_neg hk]
      exact List.Sublist.cons₂ _ ih

theorem keysNodup_eraseKey {V : Type} {k : Key} {l : List (Key × V)}
    (hnd : keysNodup l) : keysNodup (eraseKey k l) := by
  induction l with
  | nil => exact hnd
  | cons e rest ih =>
    obtain ⟨k', v'⟩ := e
    rw [keysNodup, List.map_cons, List.nodup_cons] at hnd
    by_cases hk : k'.keyStr = k.keyStr
    · rw [eraseKey, if_pos hk]; exact hnd.2
    · rw [eraseKey, if_neg hk, keysNodup, List.map_cons, List.nodup_cons]
      refine ⟨?_, ih hnd.2⟩
      intro hc
      exact hnd.1 (((eraseKey_sublist k rest).map (fun e => e.1.keyStr)).mem hc)

/-! ### Stable sorting (`list.sort(key=...)`)

CPython's `list.sort` is a stable sort; any two stable sorts with respect
to the same total preorder agree, so it is embedded as a stable insertion
sort over a boolean "less or equal" comparator. -/

/-- Insert an element in front of the first list element it is
less-or-equal to; keeps equal elements in their original relative order. -/
def pyInsertSorted {α : Type} (le : α → α → Bool) (a : α) : List α → List α
  | [] => [a]
  | b :: bs => if le a b then a :: b :: bs else b :: pyInsertSorted le a bs

/-- Embedding of Python's stable `list.sort` with comparator `le`. -/
def pySort {α : Type} (le : α → α → Bool) (l : List α) : List α :=
  l.foldr (pyInsertSorted le) []

theorem pyInsertSorted_perm {α : Type} (le : α → α → Bool) (a : α) (l : List α) :
    (pyInsertSorted le a l).Perm (a :: l) := by
  induction l with
  | nil => exact List.Perm.refl _
  | cons b bs ih =>
    rw [pyInsertSorted]
    split
    · exact List.Perm.refl _
    · exact (ih.cons b).trans (List.Perm.swap a b bs)

theorem pySort_perm {α : Type} (le : α → α → Bool) (l : List α) :
    (pySort le l).Perm l := by
  induction l with
  | nil => exact List.Perm.refl _
  | cons a as ih =>
    exact (pyInsertSorted_perm le a (pySort le as)).trans (ih.cons a)

theorem pyInsertSorted_pairwise {α : Type} {le : α → α → Bool}
    (htrans : ∀ a b c, le a b = true → le b c = true → le a c = true)
    (htot : ∀ a b, le a b || le b a) {a : α} {l : List α}
    (hp : l.Pairwise (fun x y => le x y = true)) :
    (pyInsertSorted le a l).Pairwise (fun x y => le x y = true) := by
  induction l with
  | nil => simp [pyInsertSorted]
  | cons b bs ih =>
    rw [List.pairwise_cons] at hp
    rw [pyInsertSorted]
    split
    · rename_i hab
      rw [List.pairwise_cons]
      refine ⟨?_, List.pairwise_cons.mpr hp⟩
      intro x hx
      rcases List.mem_cons.mp hx with hxb | hxbs
      · subst hxb; exact hab
      · exact htrans a b x hab (hp.1 x hxbs)
    · rename_i hab
      have hba : le b a = true := by
        have := htot a b
        rcases Bool.or_eq_true_iff.mp this with h1 | h2
        · exact absurd h1 hab
        · exact h2
      rw [List.pairwise_cons]
      refine ⟨?_, ih hp.2⟩
      intro x hx
      have hmem := (pyInsertSorted_perm le a bs).mem_iff.mp hx
      rcases List.mem_cons.mp hmem with hxa | hxbs
      · subst hxa; exact hba
      · exact hp.1 x hxbs

theorem pySort_pairwise {α : Type} {le : α → α → Bool}
    (htrans : ∀ a b c, le a b = true → le b c = true → le a c = true)
    (htot : ∀ a b, le a b || le b a) (l : List α) :
    (pySort le l).Pairwise (fun x y => le x y = true) := by
  induction l with
  | nil => simp [pySort]
  | cons a as ih => exact pyInsertSorted_pairwise htrans htot ih

/-- The head of the sorted list is a lower bound of everything in the
original list. -/
theorem pySort_head_min {α : Type} {le : α → α → Bool}
    (htrans : ∀ a b c, le a b = true → le b c = true → le a c = true)
    (htot : ∀ a b, le a b || le b a) {l : List α} {m : α} {rest : List α}
    (h : pySort le l = m :: rest) : ∀ x ∈ l, le m x = true := by
  intro x hx
  have hperm := pySort_perm le l
  have hmem : x ∈ pySort le l := hperm.mem_iff.mpr hx
  rw [h] at hmem
  rcases List.mem_cons.mp hmem with hxm | hxrest
  · subst hxm
    rcases Bool.or_eq_true_iff.mp (htot x x) with h1 | h1 <;> exact h1
  · have hp := pySort_pairwise htrans htot l
    rw [h, List.pairwise_cons] at hp
    exact hp.1 x hxrest

/-! ### The LRU cache (`llamakv.cache.lru.LRUCache`) -/

/-- State of an `LRUCache`; the `OrderedDict` is the association list in
recency order, least recently used first, most recently used last. -/
structure LRUCacheState (F J P : Type) where
  capacity : Nat
  ttlCheck : Bool
  cache : List (Key × PyValue F J P)
  hits : Nat
  misses : Nat
  inserts : Nat
  evictions : Nat
  expires : Nat

/-- Embedding of `OrderedDict.move_to_end`: the stored entry moves to the
most-recently-used end. -/
def moveToEnd {V : Type} (k : Key) : List (Key × V) → List (Key × V)
  | [] => []
  | (k', v) :: rest =>
    if k'.keyStr = k.keyStr then rest ++ [(k', v)] else (k', v) :: moveToEnd k rest

/-- Embedding of `LRUCache.get`: miss counts, expiry eviction (when
`ttl_check` is set), and the move-to-end on a hit. -/
def LRUCache.get {F J P : Type} (st : LRUCacheState F J P) (k : Key) (now : Int) :
    Option (PyValue F J P) × LRUCacheState F J P :=
  match lookupKey k st.cache with
  | none => (none, { st with misses := st.misses + 1 })
  | some v =>
    if st.ttlCheck && v.isExpired now then
      (none,
        { st with
          cache := eraseKey k st.cache
          expires := st.expires + 1
          misses := st.misses + 1 })
    else
      (some v, { st with cache := moveToEnd k st.cache, hits := st.hits + 1 })

/-- Embedding of `LRUCache.set`: replace in place (via pop + append) when
the key is present; otherwise evict the least-recently-used entry first
when full (`popitem(last=False)`, a raised `KeyError` on an empty dict is
`none`), then append the new pair at the most-recently-used end. -/
def LRUCache.set {F J P : Type} (st : LRUCacheState F J P) (k : Key)
    (v : PyValue F J P) : Option (LRUCacheState F J P) :=
  if (lookupKey k st.cache).isSome then
    some { st with cache := eraseKey k st.cache ++ [(k, v)], inserts := st.inserts + 1 }
  else if st.cache.length ≥ st.capacity then
    match st.cache with
    | [] => none
    | _ :: rest =>
      some
        { st with
          cache := rest ++ [(k, v)]
          evictions := st.evictions + 1
          inserts := st.inserts + 1 }
  else
    some { st with cache := st.cache ++ [(k, v)], inserts := st.inserts + 1 }

/-- Embedding of `LRUCache.delete`. -/
def LRUCache.delete {F J P : Type} (st : LRUCacheState F J P) (k : Key) :
    Bool × LRUCacheState F J P :=
  if (lookupKey k st.cache).isSome then
    (true, { st with cache := eraseKey k st.cache })
  else (false, st)

/-- Embedding of `LRUCache.clear`. -/
def LRUCache.clear {F J P : Type} (st : LRUCacheState F J P) : LRUCacheState F J P :=
  { st with cache := [] }

/-- C2: when `set(k, v)` finds at least `C` entries and `k` absent, exactly
one entry is evicted before inserting `k`, namely the front of the recency
order (the least recently used: the one accessed or inserted longest ago),
the eviction counter is incremented and `k` is appended at the
most-recently-used end; when `k` is present the value is replaced with no
eviction (insert counter incremented, eviction counter unchanged); and a
successful `get` moves the entry to the most-recently-used end. -/
theorem claim_C2_lru_eviction {F J P : Type} (st : LRUCacheState F J P)
    (k k1 k2 : Key) (v v1 : PyValue F J P) (e : Key × PyValue F J P)
    (tl : List (Key × PyValue F J P)) (w : PyValue F J P) (now : Int) :
    (lookupKey k st.cache = none → st.capacity ≤ st.cache.length →
      st.cache = e :: tl →
      LRUCache.set st k v =
        some
          { st with
            cache := tl ++ [(k, v)]
            evictions := st.evictions + 1
            inserts := st.inserts + 1 }) ∧
    ((lookupKey k1 st.cache).isSome →
      LRUCache.set st k1 v1 =
        some
          { st with
            cache := eraseKey k1 st.cache ++ [(k1, v1)]
            inserts := st.inserts + 1 }) ∧
    (lookupKey k2 st.cache = some w → (st.ttlCheck && w.isExpired now) = false →
      LRUCache.get st k2 now =
        (some w, { st with cache := moveToEnd k2 st.cache, hits := st.hits + 1 })) := by
  refine ⟨?_, ?_, ?_⟩
  · intro habs hcap hc
    rw [LRUCache.set, if_neg (by simp [habs]), if_pos (by omega), hc]
  · intro hpres
    rw [LRUCache.set, if_pos hpres]
  · intro hlook hexp
    simp only [LRUCache.get, hlook]
    rw [if_neg (by simp [hexp])]

/-- Concrete keys and values used by witnesses. -/
def wKey (s : String) : Key := { value := RawKey.rstr s.toList, ns := none }

/-- A concrete string envelope used by witnesses. -/
def wVal (s : String) (c : Int) (t : Option Int) : PyValue Unit Unit Unit :=
  { payload := PyPayload.pstr s.toList, createdAt := c, ttl := t, metadata := [] }

/-- A concrete two-entry LRU cache at capacity 2 used by witnesses. -/
def wLRU : LRUCacheState Unit Unit Unit :=
  { capacity := 2, ttlCheck := true,
    cache := [(wKey "a", wVal "1" 0 none), (wKey "b", wVal "2" 0 none)],
    hits := 0, misses := 0, inserts := 2, evictions := 0, expires := 0 }

/-- C2 witness: on a two-entry cache at capacity 2, inserting the fresh key
"c" evicts the front (least recently used) entry "a", replacing the present
key "a" evicts nothing, and a hit on "b" moves it to the most recently used
end. -/
theorem claim_C2_lru_eviction_witness :
    (lookupKey (wKey "c") wLRU.cache = none → wLRU.capacity ≤ wLRU.cache.length →
      wLRU.cache = (wKey "a", wVal "1" 0 none) :: [(wKey "b", wVal "2" 0 none)] →
      LRUCache.set wLRU (wKey "c") (wVal "3" 5 none) =
        some
          { wLRU with
            cache := [(wKey "b", wVal "2" 0 none)] ++ [(wKey "c", wVal "3" 5 none)]
            evictions := wLRU.evictions + 1
            inserts := wLRU.inserts + 1 }) ∧
    ((lookupKey (wKey "a") wLRU.cache).isSome →
      LRUCache.set wLRU (wKey "a") (wVal "9" 5 none) =
        some
          { wLRU with
            cache := eraseKey (wKey "a") wLRU.cache ++ [(wKey "a", wVal "9" 5 none)]
            inserts := wLRU.inserts + 1 }) ∧
    (lookupKey (wKey "b") wLRU.cache = some (wVal "2" 0 none) →
      (wLRU.ttlCheck && (wVal "2" 0 none).isExpired 7) = false →
      LRUCache.get wLRU (wKey "b") 7 =
        (some (wVal "2" 0 none),
         { wLRU with cache := moveToEnd (wKey "b") wLRU.cache, hits := wLRU.hits + 1 })) :=
  claim_C2_lru_eviction wLRU (wKey "c") (wKey "a") (wKey "b") (wVal "3" 5 none)
    (wVal "9" 5 none) (wKey "a", wVal "1" 0 none) [(wKey "b", wVal "2" 0 none)]
    (wVal "2" 0 none) 7

/-! ### The TTL cache (`llamakv.cache.ttl.TTLCache`) -/

/-- State of a `TTLCache`. -/
structure TTLCacheState (F J P : Type) where
  capacity : Nat
  defaultTtl : Int
  cleanupInterval : Int
  maxSizeBytes : Option Int
  cache : List (Key × PyValue F J P)
  estimatedSizeBytes : Int
  lastCleanup : Int
  hits : Nat
  misses : Nat
  inserts : Nat
  evictions : Nat
  expires : Nat
  cleanups : Nat

/-- The Python `str()` of the object stored under "value" in a value dict. -/
def serFormStr {F J P : Type} (L : PyLibs F J P) : SerForm F → PyStr
  | .s cs => cs
  | .i n => (toString n).toList
  | .f x => L.floatStr x

/-- Embedding of `TTLCache._estimate_item_size`: twice the length of the
key string, of the serialised value string and of each metadata entry,
plus a fixed overhead of 64. -/
def estimateItemSize {F J P : Type} (L : PyLibs F J P) (k : Key) (v : PyValue F J P) : Int :=
  2 * (k.keyStr.length : Int) +
    2 * ((serFormStr L (toDict L v).value).length : Int) +
    2 * (((toDict L v).metadata.map (fun e => (e.1.length : Int) + (e.2.length : Int))).sum) +
    64

/-- Comparator on optional expiry timestamps used by the eviction sorts:
entries without an expiry (`float('inf')` in the code) order last. -/
def expLE (a b : Option Int) : Bool :=
  match a, b with
  | none, none => true
  | none, some _ => false
  | some _, none => true
  | some x, some y => decide (x ≤ y)

/-- The sort comparator `x[1].expiry if ... else float('inf')` on cache
entries. -/
def ttlItemLE {F J P : Type} (x y : Key × PyValue F J P) : Bool :=
  expLE x.2.expiry y.2.expiry

theorem expLE_trans (a b c : Option Int)
    (h1 : expLE a b = true) (h2 : expLE b c = true) : expLE a c = true := by
  cases a <;> cases b <;> cases c <;> simp_all [expLE]
  omega

theorem expLE_total (a b : Option Int) : expLE a b || expLE b a := by
  cases a <;> cases b <;> simp [expLE]
  omega

theorem ttlItemLE_trans {F J P : Type} (x y z : Key × PyValue F J P)
    (h1 : ttlItemLE x y = true) (h2 : ttlItemLE y z = true) : ttlItemLE x z = true :=
  expLE_trans _ _ _ h1 h2

theorem ttlItemLE_total {F J P : Type} (x y : Key × PyValue F J P) :
    ttlItemLE x y || ttlItemLE y x :=
  expLE_total _ _

/-- Embedding of `TTLCache._should_cleanup`. -/
def TTLCache.shouldCleanup {F J P : Type} (st : TTLCacheState F J P) (now : Int) : Bool :=
  decide (now - st.lastCleanup ≥ st.cleanupInterval)

/-- The removal loop of `TTLCache.cleanup`: erase each snapshotted expired
entry, subtracting its size estimate when a byte budget is configured.
The size of an entry is computed from the snapshotted pair, which equals
the live dict entry for that key as long as key strings are distinct. -/
def ttlRemoveEntries {F J P : Type} (L : PyLibs F J P) (withSize : Bool) :
    List (Key × PyValue F J P) → List (Key × PyValue F J P) × Int →
      List (Key × PyValue F J P) × Int
  | [], acc => acc
  | (k, v) :: rest, (c, est) =>
    ttlRemoveEntries L withSize rest
      (eraseKey k c, if withSize then est - estimateItemSize L k v else est)

/-- Embedding of `TTLCache.cleanup` (the return value, the number of
entries removed, is recoverable as the length of the filtered list). -/
def TTLCache.cleanup {F J P : Type} (L : PyLibs F J P) (st : TTLCacheState F J P)
    (now : Int) : TTLCacheState F J P :=
  let expired := st.cache.filter (fun e => e.2.isExpired now)
  let r := ttlRemoveEntries L st.maxSizeBytes.isSome expired (st.cache, st.estimatedSizeBytes)
  { st with
    cache := r.1
    estimatedSizeBytes := r.2
    expires := st.expires + expired.length
    cleanups := st.cleanups + 1
    lastCleanup := now }

/-- Embedding of `TTLCache.get`: an interval-triggered cleanup sweep, then
lookup with expired-entry removal. -/
def TTLCache.get {F J P : Type} (L : PyLibs F J P) (st : TTLCacheState F J P)
    (k : Key) (now : Int) : Option (PyValue F J P) × TTLCacheState F J P :=
  let st1 := if TTLCache.shouldCleanup st now then TTLCache.cleanup L st now else st
  match lookupKey k st1.cache with
  | none => (none, { st1 with misses := st1.misses + 1 })
  | some v =>
    if v.isExpired now then
      (none,
        { st1 with
          cache := eraseKey k st1.cache
          estimatedSizeBytes :=
            if st1.maxSizeBytes.isSome then st1.estimatedSizeBytes - estimateItemSize L k v
            else st1.estimatedSizeBytes
          expires := st1.expires + 1
          misses := st1.misses + 1 })
    else (some v, { st1 with hits := st1.hits + 1 })

/-- The TTL stamping step at the top of `TTLCache.set`: a value arriving
without a TTL is rebuilt through `to_dict`/`from_dict` with the default
TTL put into the dict; `none` is a raised `ValueError`. -/
def ttlStampValue {F J P : Type} (L : PyLibs F J P) (st : TTLCacheState F J P)
    (v : PyValue F J P) : Option (PyValue F J P) :=
  if v.ttl = none ∧ st.defaultTtl > 0 then
    fromDict L (payloadClass v.payload) { toDict L v with ttl := some st.defaultTtl }
  else some v

/-- Everything `TTLCache.set` does before the final
`_enforce_size_limit` call: TTL stamping, size bookkeeping, the
nearest-expiry capacity eviction (`items[0]` of the list sorted by
expiry; `none` on the empty-cache `IndexError`), and the dict
assignment. -/
def TTLCache.setCore {F J P : Type} (L : PyLibs F J P) (st : TTLCacheState F J P)
    (k : Key) (v : PyValue F J P) : Option (TTLCacheState F J P) :=
  match ttlStampValue L st v with
  | none => none
  | some v1 =>
    let est1 :=
      if st.maxSizeBytes.isSome then
        (match lookupKey k st.cache with
         | some old => st.estimatedSizeBytes - estimateItemSize L k old
         | none => st.estimatedSizeBytes) + estimateItemSize L k v1
      else st.estimatedSizeBytes
    if decide (st.capacity ≤ st.cache.length) && (lookupKey k st.cache).isNone then
      match pySort ttlItemLE st.cache with
      | [] => none
      | (ek, ev) :: _ =>
        some
          { st with
            cache := insertKey k v1 (eraseKey ek st.cache)
            estimatedSizeBytes :=
              if st.maxSizeBytes.isSome then est1 - estimateItemSize L ek ev else est1
            evictions := st.evictions + 1
            inserts := st.inserts + 1 }
    else
      some
        { st with
          cache := insertKey k v1 st.cache
          estimatedSizeBytes := est1
          inserts := st.inserts + 1 }

/-- The eviction loop of `TTLCache._enforce_size_limit` over the sorted
snapshot: stop as soon as the estimate is within the budget, else delete
the entry and subtract its snapshotted size. -/
def enforceLoop {F J P : Type} (L : PyLibs F J P) (maxB : Int) :
    List (Key × PyValue F J P) → List (Key × PyValue F J P) → Int → Nat →
      List (Key × PyValue F J P) × Int × Nat
  | [], c, est, ev => (c, est, ev)
  | (k, v) :: rest, c, est, ev =>
    if est ≤ maxB then (c, est, ev)
    else enforceLoop L maxB rest (eraseKey k c) (est - estimateItemSize L k v) (ev + 1)

/-- Embedding of `TTLCache._enforce_size_limit`. -/
def TTLCache.enforceSizeLimit {F J P : Type} (L : PyLibs F J P)
    (st : TTLCacheState F J P) : TTLCacheState F J P :=
  match st.maxSizeBytes with
  | none => st
  | some maxB =>
    if st.estimatedSizeBytes ≤ maxB then st
    else
      let items := pySort ttlItemLE st.cache
      let r := enforceLoop L maxB items st.cache st.estimatedSizeBytes st.evictions
      { st with cache := r.1, estimatedSizeBytes := r.2.1, evictions := r.2.2 }

/-- Embedding of `TTLCache.set`: the pre-enforcement steps followed by
`_enforce_size_limit` when a byte budget is configured. -/
def TTLCache.set {F J P : Type} (L : PyLibs F J P) (st : TTLCacheState F J P)
    (k : Key) (v : PyValue F J P) : Option (TTLCacheState F J P) :=
  (TTLCache.setCore L st k v).map
    (fun st1 => if st1.maxSizeBytes.isSome then TTLCache.enforceSizeLimit L st1 else st1)

/-- Embedding of `TTLCache.delete`. -/
def TTLCache.delete {F J P : Type} (L : PyLibs F J P) (st : TTLCacheState F J P)
    (k : Key) : Bool × TTLCacheState F J P :=
  match lookupKey k st.cache with
  | some v =>
    (true,
      { st with
        cache := eraseKey k st.cache
        estimatedSizeBytes :=
          if st.maxSizeBytes.isSome then st.estimatedSizeBytes - estimateItemSize L k v
          else st.estimatedSizeBytes })
  | none => (false, st)

/-- Embedding of `TTLCache.clear`. -/
def TTLCache.clear {F J P : Type} (st : TTLCacheState F J P) : TTLCacheState F J P :=
  { st with
    cache := []
    estimatedSizeBytes := if st.maxSizeBytes.isSome then 0 else st.estimatedSizeBytes }

theorem fromDict_toDict_ttl {F J P : Type} (L : PyLibs F J P)
    (hjson : ∀ j, L.jsonLoads (L.jsonDumps j) = some j)
    (hpickle : ∀ o, L.pickleLoads (L.pickleDumps o) = some o)
    (v : PyValue F J P) (t : Option Int) :
    fromDict L (payloadClass v.payload) { toDict L v with ttl := t } =
      some { v with ttl := t } := by
  obtain ⟨p, c, t0, m⟩ := v
  cases p with
  | pstr s => simp [fromDict, toDict, deserializeValue, serializeValue, payloadClass]
  | pint n => simp [fromDict, toDict, deserializeValue, serializeValue, payloadClass]
  | pfloat x => simp [fromDict, toDict, deserializeValue, serializeValue, payloadClass]
  | pbytes bs =>
    simp [fromDict, toDict, deserializeValue, serializeValue, payloadClass,
      hexToBytes_bytesToHex]
  | pjson j =>
    simp [fromDict, toDict, deserializeValue, serializeValue, payloadClass, hjson]
  | ppickle o =>
    simp [fromDict, toDict, deserializeValue, serializeValue, payloadClass,
      hexToBytes_bytesToHex, hpickle]

theorem ttlStampValue_eq {F J P : Type} (L : PyLibs F J P)
    (hjson : ∀ j, L.jsonLoads (L.jsonDumps j) = some j)
    (hpickle : ∀ o, L.pickleLoads (L.pickleDumps o) = some o)
    (st : TTLCacheState F J P) (v : PyValue F J P) :
    ttlStampValue L st v =
      some (if v.ttl = none ∧ st.defaultTtl > 0 then { v with ttl := some st.defaultTtl }
        else v) := by
  rw [ttlStampValue]
  by_cases h : v.ttl = none ∧ st.defaultTtl > 0
  · rw [if_pos h, if_pos h, fromDict_toDict_ttl L hjson hpickle]
  · rw [if_neg h, if_neg h]

theorem lookupKey_none_of_sublist {V : Type} {k : Key} {l1 l2 : List (Key × V)}
    (hsub : l1.Sublist l2) (h : lookupKey k l2 = none) : lookupKey k l1 = none := by
  rw [lookupKey_eq_none_iff] at h ⊢
  exact fun e he => h e (hsub.mem he)

/-- C1: when `TTLCache.set(k, v)` runs on a cache holding exactly its
capacity of entries with `k` absent, the single entry deleted before the
new pair is inserted is one whose expiry timestamp is soonest among the
current entries, entries without an expiry ordering last (`expLE` against
every current entry) — recency plays no role; the remaining state is the
erase-then-append, followed only by the size-budget enforcement step. -/
theorem claim_C1_ttl_evicts_soonest {F J P : Type} (L : PyLibs F J P)
    (hjson : ∀ j, L.jsonLoads (L.jsonDumps j) = some j)
    (hpickle : ∀ o, L.pickleLoads (L.pickleDumps o) = some o)
    (st : TTLCacheState F J P) (k : Key) (v : PyValue F J P)
    (hlen : st.cache.length = st.capacity)
    (hpos : 0 < st.capacity)
    (habs : lookupKey k st.cache = none) :
    ∃ ek ev,
      (ek, ev) ∈ st.cache ∧
      (∀ e ∈ st.cache, expLE (PyValue.expiry ev) (PyValue.expiry e.2) = true) ∧
      (let v1 := if v.ttl = none ∧ st.defaultTtl > 0 then { v with ttl := some st.defaultTtl }
          else v
       let stMid : TTLCacheState F J P :=
        { st with
          cache := eraseKey ek st.cache ++ [(k, v1)]
          estimatedSizeBytes :=
            if st.maxSizeBytes.isSome then
              st.estimatedSizeBytes + estimateItemSize L k v1 - estimateItemSize L ek ev
            else st.estimatedSizeBytes
          evictions := st.evictions + 1
          inserts := st.inserts + 1 }
       TTLCache.set L st k v =
        some (if st.maxSizeBytes.isSome then TTLCache.enforceSizeLimit L stMid else stMid)) := by
  have hlpos : 0 < st.cache.length := by omega
  cases hsort : pySort ttlItemLE st.cache with
  | nil =>
    exfalso
    have hpl := (pySort_perm ttlItemLE st.cache).length_eq
    rw [hsort] at hpl
    simp at hpl
    omega
  | cons hd rest =>
    obtain ⟨ek, ev⟩ := hd
    have hmem : (ek, ev) ∈ st.cache := by
      have : (ek, ev) ∈ pySort ttlItemLE st.cache := by rw [hsort]; exact List.mem_cons_self _ _
      exact (pySort_perm ttlItemLE st.cache).mem_iff.mp this
    have hmin := pySort_head_min ttlItemLE_trans ttlItemLE_total hsort
    refine ⟨ek, ev, hmem, fun e he => hmin e he, ?_⟩
    rw [TTLCache.set, TTLCache.setCore,
      ttlStampValue_eq L hjson hpickle st v]
    simp only [habs]
    rw [if_pos (by simp [← hlen, habs])]
    simp only [hsort,
      insertKey_of_absent (lookupKey_none_of_sublist (eraseKey_sublist ek st.cache) habs)]
    rcases hmb : st.maxSizeBytes with _ | b
    · simp [hmb]
    · simp [hmb]

/-- Trivially invertible library codecs over unit payload types, used by
witnesses. -/
def wLibs : PyLibs Unit Unit Unit :=
  { jsonDumps := fun _ => [], jsonLoads := fun _ => some (), pickleDumps := fun _ => [],
    pickleLoads := fun _ => some (), floatStr := fun _ => [], wrapValue := fun _ => () }

/-- A concrete two-entry TTL cache at capacity 2 used by witnesses; entry
"b" expires soonest. -/
def wTTL : TTLCacheState Unit Unit Unit :=
  { capacity := 2, defaultTtl := 300, cleanupInterval := 60, maxSizeBytes := none,
    cache := [(wKey "a", wVal "1" 0 (some 5)), (wKey "b", wVal "2" 0 (some 2))],
    estimatedSizeBytes := 0, lastCleanup := 0,
    hits := 0, misses := 0, inserts := 2, evictions := 0, expires := 0, cleanups := 0 }

/-- C1 witness: inserting a fresh key into the full two-entry TTL cache
evicts an entry whose expiry is soonest among the current entries. -/
theorem claim_C1_ttl_evicts_soonest_witness :
    ∃ ek ev,
      (ek, ev) ∈ wTTL.cache ∧
      (∀ e ∈ wTTL.cache, expLE (PyValue.expiry ev) (PyValue.expiry e.2) = true) ∧
      (let v1 := if (wVal "9" 10 (some 1)).ttl = none ∧ wTTL.defaultTtl > 0 then
          { wVal "9" 10 (some 1) with ttl := some wTTL.defaultTtl }
        else wVal "9" 10 (some 1)
       let stMid : TTLCacheState Unit Unit Unit :=
        { wTTL with
          cache := eraseKey ek wTTL.cache ++ [(wKey "c", v1)]
          estimatedSizeBytes :=
            if wTTL.maxSizeBytes.isSome then
              wTTL.estimatedSizeBytes + estimateItemSize wLibs (wKey "c") v1 -
                estimateItemSize wLibs ek ev
            else wTTL.estimatedSizeBytes
          evictions := wTTL.evictions + 1
          inserts := wTTL.inserts + 1 }
       TTLCache.set wLibs wTTL (wKey "c") (wVal "9" 10 (some 1)) =
        some (if wTTL.maxSizeBytes.isSome then TTLCache.enforceSizeLimit wLibs stMid
          else stMid)) :=
  claim_C1_ttl_evicts_soonest wLibs (fun _ => rfl) (fun _ => rfl) wTTL (wKey "c")
    (wVal "9" 10 (some 1)) rfl (by decide) rfl

/-! ### Byte accounting of the TTL cache -/

/-- The sum of the per-entry size estimates of the entries currently in
the map. -/
def sizeSum {F J P : Type} (L : PyLibs F J P) (l : List (Key × PyValue F J P)) : Int :=
  (l.map (fun e => estimateItemSize L e.1 e.2)).sum

theorem sizeSum_nil {F J P : Type} (L : PyLibs F J P) : sizeSum L [] = 0 := rfl

theorem sizeSum_cons {F J P : Type} (L : PyLibs F J P) (e : Key × PyValue F J P)
    (l : List (Key × PyValue F J P)) :
    sizeSum L (e :: l) = estimateItemSize L e.1 e.2 + sizeSum L l := by
  simp [sizeSum]

theorem sizeSum_append {F J P : Type} (L : PyLibs F J P)
    (l1 l2 : List (Key × PyValue F J P)) :
    sizeSum L (l1 ++ l2) = sizeSum L l1 + sizeSum L l2 := by
  simp [sizeSum]

theorem estimateItemSize_congr {F J P : Type} (L : PyLibs F J P) {k k' : Key}
    (v : PyValue F J P) (h : k.keyStr = k'.keyStr) :
    estimateItemSize L k v = estimateItemSize L k' v := by
  rw [estimateItemSize, estimateItemSize, h]

theorem sizeSum_eraseKey {F J P : Type} (L : PyLibs F J P) {k : Key}
    {v : PyValue F J P} {l : List (Key × PyValue F J P)}
    (h : lookupKey k l = some v) :
    sizeSum L (eraseKey k l) = sizeSum L l - estimateItemSize L k v := by
  obtain ⟨k0, pre, post, hl, hks, her, _⟩ := lookupKey_decomp h
  rw [her, hl, sizeSum_append, sizeSum_append, sizeSum_cons]
  rw [estimateItemSize_congr L v hks.symm]
  ring

theorem sizeSum_insertKey_present {F J P : Type} (L : PyLibs F J P) {k : Key}
    {old : PyValue F J P} (v : PyValue F J P) {l : List (Key × PyValue F J P)}
    (h : lookupKey k l = some old) :
    sizeSum L (insertKey k v l) =
      sizeSum L l - estimateItemSize L k old + estimateItemSize L k v := by
  induction l with
  | nil => simp [lookupKey] at h
  | cons e rest ih =>
    obtain ⟨k', v'⟩ := e
    by_cases hk : k'.keyStr = k.keyStr
    · simp only [lookupKey, if_pos hk, Option.some.injEq] at h
      rw [insertKey, if_pos hk, sizeSum_cons, sizeSum_cons, h,
        estimateItemSize_congr L old hk, estimateItemSize_congr L v hk]
      ring
    · simp only [lookupKey, if_neg hk] at h
      rw [insertKey, if_neg hk, sizeSum_cons, sizeSum_cons, ih h]
      ring

theorem keys_insertKey_present {F J P : Type} {k : Key} {old : PyValue F J P}
    (v : PyValue F J P) {l : List (Key × PyValue F J P)}
    (h : lookupKey k l = some old) :
    (insertKey k v l).map (fun e => e.1.keyStr) = l.map (fun e => e.1.keyStr) := by
  induction l with
  | nil => simp [lookupKey] at h
  | cons e rest ih =>
    obtain ⟨k', v'⟩ := e
    by_cases hk : k'.keyStr = k.keyStr
    · rw [insertKey, if_pos hk, List.map_cons, List.map_cons]
    · simp only [lookupKey, if_neg hk] at h
      rw [insertKey, if_neg hk, List.map_cons, List.map_cons, ih h]

theorem keysNodup_insertKey {F J P : Type} {k : Key} (v : PyValue F J P)
    {l : List (Key × PyValue F J P)} (hnd : keysNodup l) :
    keysNodup (insertKey k v l) := by
  rcases hlk : lookupKey k l with _ | old
  · rw [insertKey_of_absent hlk, keysNodup, List.map_append, List.nodup_append]
    refine ⟨hnd, by simp, ?_⟩
    intro x hx
    simp only [List.map_cons, List.map_nil, List.mem_singleton]
    intro hc
    rw [lookupKey_eq_none_iff] at hlk
    simp only [List.mem_map] at hx
    obtain ⟨e, he, hex⟩ := hx
    subst hc
    exact hlk e he (by rw [hex])
  · rw [keysNodup, keys_insertKey_present v hlk]
    exact hnd

theorem mem_eraseKey_of_ne {F J P : Type} {k : Key} {e : Key × PyValue F J P}
    {l : List (Key × PyValue F J P)} (hmem : e ∈ l) (hne : e.1.keyStr ≠ k.keyStr) :
    e ∈ eraseKey k l := by
  induction l with
  | nil => simp at hmem
  | cons e' rest ih =>
    obtain ⟨k', v'⟩ := e'
    by_cases hk : k'.keyStr = k.keyStr
    · rw [eraseKey, if_pos hk]
      rcases List.mem_cons.mp hmem with heq | htail
      · exfalso; apply hne; rw [heq]; exact hk
      · exact htail
    · rw [eraseKey, if_neg hk]
      rcases List.mem_cons.mp hmem with heq | htail
      · exact heq ▸ List.mem_cons_self _ _
      · exact List.mem_cons_of_mem _ (ih htail)

theorem lookupKey_decomp_nodup {V : Type} {k : Key} {v : V} {l : List (Key × V)}
    (hnd : keysNodup l) (hm : (k, v) ∈ l) :
    ∃ pre post, l = pre ++ (k, v) :: post ∧ eraseKey k l = pre ++ post := by
  have hlk := lookupKey_of_mem hnd hm
  obtain ⟨k0, pre, post, hleq, hks, her, hpre⟩ := lookupKey_decomp hlk
  have hkk : k0 = k := by
    rcases List.mem_append.mp (hleq ▸ hm) with hin | hin
    · exact absurd rfl (hpre _ hin)
    · rcases List.mem_cons.mp hin with heq | hin2
      · injection heq with h1 h2
        exact h1.symm
      · exfalso
        have hnd2 : ((pre ++ (k0, v) :: post).map (fun e => e.1.keyStr)).Nodup := hleq ▸ hnd
        rw [List.map_append, List.map_cons] at hnd2
        have hsl : (k0.keyStr :: post.map (fun e => e.1.keyStr)).Nodup :=
          hnd2.sublist (List.sublist_append_right _ _)
        rw [List.nodup_cons] at hsl
        apply hsl.1
        rw [hks]
        exact List.mem_map_of_mem (fun e => e.1.keyStr) hin2
  subst hkk
  exact ⟨pre, post, hleq, her⟩

theorem ttlRemoveEntries_inv {F J P : Type} (L : PyLibs F J P) (withSize : Bool)
    (entries : List (Key × PyValue F J P)) :
    ∀ (c : List (Key × PyValue F J P)) (est : Int),
      keysNodup entries → (∀ e ∈ entries, e ∈ c) → keysNodup c →
      (withSize = true → est = sizeSum L c) →
      keysNodup (ttlRemoveEntries L withSize entries (c, est)).1 ∧
        (withSize = true →
          (ttlRemoveEntries L withSize entries (c, est)).2 =
            sizeSum L (ttlRemoveEntries L withSize entries (c, est)).1) := by
  induction entries with
  | nil =>
    intro c est _ _ hc hest
    exact ⟨hc, hest⟩
  | cons e rest ih =>
    obtain ⟨k, v⟩ := e
    intro c est hke hsub hc hest
    have hm : (k, v) ∈ c := hsub _ (List.mem_cons_self _ _)
    have hlk : lookupKey k c = some v := lookupKey_of_mem hc hm
    rw [ttlRemoveEntries]
    rw [keysNodup, List.map_cons, List.nodup_cons] at hke
    apply ih
    · exact hke.2
    · intro e2 he2
      apply mem_eraseKey_of_ne (hsub _ (List.mem_cons_of_mem _ he2))
      intro hc2
      exact hke.1 (hc2 ▸ List.mem_map_of_mem (fun e => e.1.keyStr) he2)
    · exact keysNodup_eraseKey hc
    · intro hw
      rw [if_pos hw, hest hw, sizeSum_eraseKey L hlk]

theorem enforceLoop_inv {F J P : Type} (L : PyLibs F J P) (maxB : Int)
    (hmax : 0 ≤ maxB) (items : List (Key × PyValue F J P)) :
    ∀ (c : List (Key × PyValue F J P)) (est : Int) (ev : Nat),
      items.Perm c → keysNodup c → est = sizeSum L c →
      keysNodup (enforceLoop L maxB items c est ev).1 ∧
        (enforceLoop L maxB items c est ev).2.1 =
          sizeSum L (enforceLoop L maxB items c est ev).1 ∧
        (enforceLoop L maxB items c est ev).2.1 ≤ maxB := by
  induction items with
  | nil =>
    intro c est ev hperm hc hest
    have hcnil : c = [] := hperm.symm.eq_nil
    subst hcnil
    rw [hest]
    exact ⟨hc, rfl, by rw [sizeSum_nil]; exact hmax⟩
  | cons hd rest ih =>
    obtain ⟨k, v⟩ := hd
    intro c est ev hperm hc hest
    rw [enforceLoop]
    by_cases hle : est ≤ maxB
    · rw [if_pos hle]
      exact ⟨hc, hest, hle⟩
    · rw [if_neg hle]
      have hm : (k, v) ∈ c := hperm.subset (List.mem_cons_self _ _)
      have hlk : lookupKey k c = some v := lookupKey_of_mem hc hm
      obtain ⟨pre, post, hleq, her⟩ := lookupKey_decomp_nodup hc hm
      have hperm2 : rest.Perm (eraseKey k c) := by
        rw [her]
        have hp := hperm
        rw [hleq] at hp
        exact (hp.trans List.perm_middle).cons_inv
      apply ih
      · exact hperm2
      · exact keysNodup_eraseKey hc
      · rw [hest, sizeSum_eraseKey L hlk]

theorem ttlCleanup_inv {F J P : Type} (L : PyLibs F J P) (st : TTLCacheState F J P)
    (now : Int) (hnd : keysNodup st.cache)
    (hacc : st.maxSizeBytes.isSome = true → st.estimatedSizeBytes = sizeSum L st.cache) :
    keysNodup (TTLCache.cleanup L st now).cache ∧
      (st.maxSizeBytes.isSome = true →
        (TTLCache.cleanup L st now).estimatedSizeBytes =
          sizeSum L (TTLCache.cleanup L st now).cache) ∧
      (TTLCache.cleanup L st now).maxSizeBytes = st.maxSizeBytes ∧
      (TTLCache.cleanup L st now).capacity = st.capacity := by
  have hke : keysNodup (st.cache.filter (fun e => e.2.isExpired now)) := by
    rw [keysNodup]
    exact hnd.sublist ((List.filter_sublist _).map _)
  have hr := ttlRemoveEntries_inv L st.maxSizeBytes.isSome
    (st.cache.filter (fun e => e.2.isExpired now)) st.cache st.estimatedSizeBytes
    hke (fun e he => List.mem_of_mem_filter he) hnd hacc
  rw [TTLCache.cleanup]
  exact ⟨hr.1, hr.2, rfl, rfl⟩

theorem ttlEnforce_inv {F J P : Type} (L : PyLibs F J P) (st : TTLCacheState F J P)
    (S : Int) (hmb : st.maxSizeBytes = some S) (hS : 0 ≤ S)
    (hnd : keysNodup st.cache)
    (hacc : st.estimatedSizeBytes = sizeSum L st.cache) :
    keysNodup (TTLCache.enforceSizeLimit L st).cache ∧
      (TTLCache.enforceSizeLimit L st).estimatedSizeBytes =
        sizeSum L (TTLCache.enforceSizeLimit L st).cache ∧
      (TTLCache.enforceSizeLimit L st).estimatedSizeBytes ≤ S ∧
      (TTLCache.enforceSizeLimit L st).maxSizeBytes = some S := by
  simp only [TTLCache.enforceSizeLimit, hmb]
  by_cases hle : st.estimatedSizeBytes ≤ S
  · rw [if_pos hle]
    exact ⟨hnd, hacc, hle, hmb⟩
  · rw [if_neg hle]
    have hr := enforceLoop_inv L S hS (pySort ttlItemLE st.cache) st.cache
      st.estimatedSizeBytes st.evictions (pySort_perm _ _) hnd hacc
    exact ⟨hr.1, hr.2.1, hr.2.2, rfl⟩

theorem ttlSetCore_inv {F J P : Type} (L : PyLibs F J P)
    (hjson : ∀ j, L.jsonLoads (L.jsonDumps j) = some j)
    (hpickle : ∀ o, L.pickleLoads (L.pickleDumps o) = some o)
    (st : TTLCacheState F J P) (k : Key) (v : PyValue F J P) (S : Int)
    (hnd : keysNodup st.cache) (hacc : st.estimatedSizeBytes = sizeSum L st.cache)
    (hmb : st.maxSizeBytes = some S) (hcap : 0 < st.capacity) :
    ∃ st1, TTLCache.setCore L st k v = some st1 ∧ keysNodup st1.cache ∧
      st1.estimatedSizeBytes = sizeSum L st1.cache ∧ st1.maxSizeBytes = some S := by
  rw [TTLCache.setCore, ttlStampValue_eq L hjson hpickle st v]
  set v1 := if v.ttl = none ∧ st.defaultTtl > 0 then { v with ttl := some st.defaultTtl }
    else v with hv1
  have hsome : st.maxSizeBytes.isSome = true := by rw [hmb]; rfl
  rcases hlk : lookupKey k st.cache with _ | old
  · simp only [hsome, if_true, Option.isNone_none, Bool.and_true, decide_eq_true_eq]
    by_cases hfull : st.capacity ≤ st.cache.length
    · rw [if_pos hfull]
      have hlpos : 0 < st.cache.length := by omega
      cases hsort : pySort ttlItemLE st.cache with
      | nil =>
        exfalso
        have hpl := (pySort_perm ttlItemLE st.cache).length_eq
        rw [hsort] at hpl
        simp at hpl
        omega
      | cons hd rest =>
        obtain ⟨ek, ev⟩ := hd
        have hmem : (ek, ev) ∈ st.cache := by
          have hx : (ek, ev) ∈ pySort ttlItemLE st.cache := by
            rw [hsort]; exact List.mem_cons_self _ _
          exact (pySort_perm ttlItemLE st.cache).mem_iff.mp hx
        have hlkev : lookupKey ek st.cache = some ev := lookupKey_of_mem hnd hmem
        have habs2 : lookupKey k (eraseKey ek st.cache) = none :=
          lookupKey_none_of_sublist (eraseKey_sublist ek st.cache) hlk
        refine ⟨_, rfl, keysNodup_insertKey v1 (keysNodup_eraseKey hnd), ?_, hmb⟩
        rw [insertKey_of_absent habs2, sizeSum_append, sizeSum_eraseKey L hlkev,
          sizeSum_cons, sizeSum_nil, hacc]
        ring
    · rw [if_neg hfull]
      refine ⟨_, rfl, keysNodup_insertKey v1 hnd, ?_, hmb⟩
      rw [insertKey_of_absent hlk, sizeSum_append, sizeSum_cons, sizeSum_nil, hacc]
      ring
  · simp only [hsome, if_true, Option.isNone_some, Bool.and_false, Bool.false_eq_true,
      if_false]
    refine ⟨_, rfl, keysNodup_insertKey v1 hnd, ?_, hmb⟩
    rw [sizeSum_insertKey_present L v1 hlk, hacc]

/-- C10: with a byte budget configured, after each public TTL-cache
operation the running byte estimate equals the sum of the per-entry size
estimates of exactly the entries in the map, and after a `set` the
estimate is at or under the budget (enforcement may evict entries,
including the just-inserted one, rather than raising). -/
theorem claim_C10_ttl_size_accounting {F J P : Type} (L : PyLibs F J P)
    (hjson : ∀ j, L.jsonLoads (L.jsonDumps j) = some j)
    (hpickle : ∀ o, L.pickleLoads (L.pickleDumps o) = some o)
    (st : TTLCacheState F J P) (k kg kd : Key) (v : PyValue F J P) (now : Int) (S : Int)
    (hnd : keysNodup st.cache) (hacc : st.estimatedSizeBytes = sizeSum L st.cache)
    (hmb : st.maxSizeBytes = some S) (hS : 0 ≤ S) (hcap : 0 < st.capacity) :
    (∃ st', TTLCache.set L st k v = some st' ∧ keysNodup st'.cache ∧
      st'.estimatedSizeBytes = sizeSum L st'.cache ∧ st'.estimatedSizeBytes ≤ S) ∧
    ((TTLCache.get L st kg now).2.estimatedSizeBytes =
      sizeSum L (TTLCache.get L st kg now).2.cache) ∧
    ((TTLCache.delete L st kd).2.estimatedSizeBytes =
      sizeSum L (TTLCache.delete L st kd).2.cache) ∧
    ((TTLCache.clear st).estimatedSizeBytes = sizeSum L (TTLCache.clear st).cache) ∧
    ((TTLCache.cleanup L st now).estimatedSizeBytes =
      sizeSum L (TTLCache.cleanup L st now).cache) := by
  have hsome : st.maxSizeBytes.isSome = true := by rw [hmb]; rfl
  have hclean := ttlCleanup_inv L st now hnd (fun _ => hacc)
  refine ⟨?_, ?_, ?_, ?_, ?_⟩
  · obtain ⟨st1, hsc, hnd1, hacc1, hmb1⟩ :=
      ttlSetCore_inv L hjson hpickle st k v S hnd hacc hmb hcap
    have henf := ttlEnforce_inv L st1 S hmb1 hS hnd1 hacc1
    refine ⟨_, ?_, henf.1, henf.2.1, henf.2.2.1⟩
    rw [TTLCache.set, hsc]
    simp only [Option.map_some', hmb1, Option.isSome_some, if_true]
  · rw [TTLCache.get]
    have hnd1 : keysNodup (if TTLCache.shouldCleanup st now then
        TTLCache.cleanup L st now else st).cache := by
      split
      · exact hclean.1
      · exact hnd
    have hacc1 : (if TTLCache.shouldCleanup st now then
        TTLCache.cleanup L st now else st).estimatedSizeBytes =
        sizeSum L (if TTLCache.shouldCleanup st now then
          TTLCache.cleanup L st now else st).cache := by
      split
      · exact hclean.2.1 hsome
      · exact hacc
    have hmb1 : (if TTLCache.shouldCleanup st now then
        TTLCache.cleanup L st now else st).maxSizeBytes = some S := by
      split
      · rw [hclean.2.2.1, hmb]
      · exact hmb
    set st1 := if TTLCache.shouldCleanup st now then TTLCache.cleanup L st now else st
      with hst1
    rcases hg : lookupKey kg st1.cache with _ | vg
    · exact hacc1
    · dsimp only
      by_cases hexpd : vg.isExpired now = true
      · rw [if_pos hexpd]
        have hsome1 : st1.maxSizeBytes.isSome = true := by rw [hmb1]; rfl
        dsimp only
        simp only [hsome1, if_true]
        rw [sizeSum_eraseKey L hg, hacc1]
      · rw [if_neg hexpd]
        exact hacc1
  · rw [TTLCache.delete]
    rcases hd : lookupKey kd st.cache with _ | vd
    · exact hacc
    · simp only [hsome, if_true]
      rw [sizeSum_eraseKey L hd, hacc]
  · rw [TTLCache.clear]
    simp only [hsome, if_true]
    rfl
  · exact hclean.2.1 hsome

/-- The witness TTL cache with a byte budget: two 68-byte entries, budget
1000. -/
def wTTLB : TTLCacheState Unit Unit Unit :=
  { wTTL with maxSizeBytes := some 1000, estimatedSizeBytes := 136 }

/-- C10 witness: the accounting invariant evaluated on the concrete
budgeted cache for a set, a get, a delete, a clear and a cleanup. -/
theorem claim_C10_ttl_size_accounting_witness :
    (∃ st', TTLCache.set wLibs wTTLB (wKey "c") (wVal "3" 5 (some 1)) = some st' ∧
      keysNodup st'.cache ∧ st'.estimatedSizeBytes = sizeSum wLibs st'.cache ∧
      st'.estimatedSizeBytes ≤ 1000) ∧
    ((TTLCache.get wLibs wTTLB (wKey "a") 3).2.estimatedSizeBytes =
      sizeSum wLibs (TTLCache.get wLibs wTTLB (wKey "a") 3).2.cache) ∧
    ((TTLCache.delete wLibs wTTLB (wKey "b")).2.estimatedSizeBytes =
      sizeSum wLibs (TTLCache.delete wLibs wTTLB (wKey "b")).2.cache) ∧
    ((TTLCache.clear wTTLB).estimatedSizeBytes =
      sizeSum wLibs (TTLCache.clear wTTLB).cache) ∧
    ((TTLCache.cleanup wLibs wTTLB 3).estimatedSizeBytes =
      sizeSum wLibs (TTLCache.cleanup wLibs wTTLB 3).cache) :=
  claim_C10_ttl_size_accounting wLibs (fun _ => rfl) (fun _ => rfl) wTTLB (wKey "c")
    (wKey "a") (wKey "b") (wVal "3" 5 (some 1)) 3 1000 (by unfold keysNodup; decide)
    (by decide) rfl (by decide) (by decide)

/-! ### The memory backend (`llamakv.persistence.memory.MemoryBackend`)

The default backend of a `KVStore`; its set/delete callbacks are the
store's cache-sync hooks, applied inline where the backend fires them
(callback exceptions are swallowed by the backend). -/

structure MemoryBackendState (F J P : Type) where
  store : List (Key × PyValue F J P)
  reads : Nat
  writes : Nat
  deletes : Nat

/-- Embedding of `MemoryBackend.set` (without its callbacks, fired by the
caller). -/
def MemoryBackend.set {F J P : Type} (b : MemoryBackendState F J P) (k : Key)
    (v : PyValue F J P) : MemoryBackendState F J P :=
  { b with store := insertKey k v b.store, writes := b.writes + 1 }

/-- Embedding of `MemoryBackend.get`. -/
def MemoryBackend.get {F J P : Type} (b : MemoryBackendState F J P) (k : Key) :
    Option (PyValue F J P) × MemoryBackendState F J P :=
  match lookupKey k b.store with
  | some v => (some v, { b with reads := b.reads + 1 })
  | none => (none, b)

/-- Embedding of `MemoryBackend.delete` (without its callbacks). -/
def MemoryBackend.delete {F J P : Type} (b : MemoryBackendState F J P) (k : Key) :
    Bool × MemoryBackendState F J P :=
  if (lookupKey k b.store).isSome then
    (true, { b with store := eraseKey k b.store, deletes := b.deletes + 1 })
  else (false, b)

/-- Embedding of `MemoryBackend.keys` with no pattern or namespace
filter. -/
def MemoryBackend.keys {F J P : Type} (b : MemoryBackendState F J P) : List Key :=
  b.store.map (fun e => e.1)

/-- Embedding of `MemoryBackend.clear`. -/
def MemoryBackend.clear {F J P : Type} (b : MemoryBackendState F J P) :
    MemoryBackendState F J P :=
  { b with store := [] }

/-! ### The distributed client (`llamakv.distributed.client.DistributedClient`)

Outbound HTTP is an external collaborator: a propagation network behavior
maps a node URL and an attempt index to the outcome of one POST to that
node's propagate endpoint. -/

/-- Outcome of a single propagation POST: HTTP 200, another status code,
or a raised `RequestException`. -/
inductive PropResp where
  | psucc
  | pfail (code : Nat)
  | pexc
deriving DecidableEq

/-- One queued update. -/
inductive UpdateOp (F J P : Type) where
  | uset (k : Key) (v : PyValue F J P)
  | udel (k : Key)
  | uclear

structure DistClientState (F J P : Type) where
  nodes : List PyStr
  retryInterval : Nat
  retryAttempts : Nat
  asyncUpdates : Bool
  maxQueueSize : Nat
  queue : List (UpdateOp F J P)
  propagationsSent : Nat
  propagationsFailed : Nat
  readsSent : Nat
  readsFailed : Nat
  nodesDown : List PyStr

/-- Adding a node to the `nodes_down` set. -/
def addDown (n : PyStr) (l : List PyStr) : List PyStr :=
  if n ∈ l then l else l ++ [n]

/-- The retry loop against one node: attempts run in order until an HTTP
200 breaks out; any other outcome proceeds to the next attempt (after the
retry sleep). Returns whether the node was reached successfully. -/
def propTryNode (pnet : PyStr → Nat → PropResp) (node : PyStr) :
    Nat → Nat → Bool
  | _, 0 => false
  | a, rem + 1 =>
    match pnet node a with
    | .psucc => true
    | _ => propTryNode pnet node (a + 1) rem

/-- The node loop shared by `_propagate_set_sync`, `_propagate_delete_sync`
and `_propagate_clear_sync` (they differ only in the JSON payload, which
the network behavior absorbs): skip nodes currently down, count a failure
and mark the node down when its retries are exhausted, succeed when any
node answers 200 (a successful node is removed from the down set, a no-op
here since down nodes are skipped). -/
def propSyncLoop (pnet : PyStr → Nat → PropResp) (retryAttempts : Nat) :
    List PyStr → List PyStr → Nat → Bool → List PyStr × Nat × Bool
  | [], down, failed, succ => (down, failed, succ)
  | node :: rest, down, failed, succ =>
    if node ∈ down then propSyncLoop pnet retryAttempts rest down failed succ
    else if propTryNode pnet node 0 retryAttempts then
      propSyncLoop pnet retryAttempts rest down failed true
    else propSyncLoop pnet retryAttempts rest (addDown node down) (failed + 1) succ

/-- The synchronous propagation of one operation to all nodes. -/
def propagateOpSync {F J P : Type} (pnet : PyStr → Nat → PropResp)
    (c : DistClientState F J P) : Bool × DistClientState F J P :=
  let r := propSyncLoop pnet c.retryAttempts c.nodes c.nodesDown 0 false
  (r.2.2,
    { c with
      nodesDown := r.1
      propagationsFailed := c.propagationsFailed + r.2.1
      propagationsSent := if r.2.2 then c.propagationsSent + 1 else c.propagationsSent })

/-- Whether a non-blocking `Queue.put` raises `queue.Full`: only a
positive `maxsize` bounds the queue. -/
def queueFull {F J P : Type} (c : DistClientState F J P) : Bool :=
  decide (0 < c.maxQueueSize) && decide (c.maxQueueSize ≤ c.queue.length)

/-- Embedding of `DistributedClient.propagate_set`: enqueue without
blocking in async mode (a full queue drops the update), else propagate
synchronously. -/
def DistClient.propagateSet {F J P : Type} (pnet : PyStr → Nat → PropResp)
    (c : DistClientState F J P) (k : Key) (v : PyValue F J P) :
    Bool × DistClientState F J P :=
  if c.asyncUpdates then
    if queueFull c then (false, c)
    else (true, { c with queue := c.queue ++ [.uset k v] })
  else propagateOpSync pnet c

/-- Embedding of `DistributedClient.propagate_delete`. -/
def DistClient.propagateDelete {F J P : Type} (pnet : PyStr → Nat → PropResp)
    (c : DistClientState F J P) (k : Key) : Bool × DistClientState F J P :=
  if c.asyncUpdates then
    if queueFull c then (false, c)
    else (true, { c with queue := c.queue ++ [.udel k] })
  else propagateOpSync pnet c

/-- Embedding of `DistributedClient.propagate_clear`. -/
def DistClient.propagateClear {F J P : Type} (pnet : PyStr → Nat → PropResp)
    (c : DistClientState F J P) : Bool × DistClientState F J P :=
  if c.asyncUpdates then
    if queueFull c then (false, c)
    else (true, { c with queue := c.queue ++ [.uclear] })
  else propagateOpSync pnet c

/-! ### The store orchestrator (`llamakv.core.store.KVStore`)

The store owns its default collaborators: a `MemoryBackend` and an
`LRUCache`. The backend's registered set/delete callbacks are the store's
cache-sync hooks `_on_backend_set`/`_on_backend_delete`; the backend
swallows callback exceptions, so a failing cache call inside a callback
leaves the cache unchanged. -/

structure StoreState (F J P : Type) where
  backend : MemoryBackendState F J P
  cache : LRUCacheState F J P
  distributed : Option (DistClientState F J P)
  defaultTtl : Option Int
  autoPurge : Bool
  purgeInterval : Int
  lastPurge : Int

/-- The result of `KVStore.get`: either the payload of the resolved
envelope (`value.value`) or the caller-supplied default. -/
inductive GetResult (F J P : Type) where
  | value (p : PyPayload F J P)
  | deflt

/-- The objects `KVStore.set` accepts as its `value` argument: a plain
payload, or an already-built `Value` envelope (which the `isinstance`
chain fails to recognise and wraps in a `PickleValue`). -/
inductive SetInput (F J P : Type) where
  | inPayload (p : PyPayload F J P)
  | inValue (w : PyValue F J P)

/-- The `isinstance`-chain auto-detection of `KVStore.set`: each payload
shape picks its envelope class; any other object — a `Value` instance
included — falls through to `PickleValue`. -/
def detectPayload {F J P : Type} (L : PyLibs F J P) : SetInput F J P → PyPayload F J P
  | .inPayload p => p
  | .inValue w => .ppickle (L.wrapValue w)

/-- Embedding of `KVStore.delete`: backend delete (firing the delete
callback, which removes the key from the cache), the store's own cache
delete, and propagation when a distributed client is attached. -/
def KVStore.delete {F J P : Type} (pnet : PyStr → Nat → PropResp)
    (st : StoreState F J P) (k : Key) : Bool × StoreState F J P :=
  let r := MemoryBackend.delete st.backend k
  let c1 := if r.1 then (LRUCache.delete st.cache k).2 else st.cache
  let c2 := (LRUCache.delete c1 k).2
  let st1 := { st with backend := r.2, cache := c2 }
  match st1.distributed with
  | none => (r.1, st1)
  | some cl =>
    (r.1, { st1 with distributed := some (DistClient.propagateDelete pnet cl k).2 })

/-- The scan loop of `KVStore.purge_expired` over the snapshot of backend
keys. -/
def purgeLoop {F J P : Type} (pnet : PyStr → Nat → PropResp) (now : Int) :
    List Key → StoreState F J P → Nat → StoreState F J P × Nat
  | [], st, count => (st, count)
  | k :: rest, st, count =>
    let g := MemoryBackend.get st.backend k
    let st1 := { st with backend := g.2 }
    match g.1 with
    | some v =>
      if v.isExpired now then
        purgeLoop pnet now rest (KVStore.delete pnet st1 k).2 (count + 1)
      else purgeLoop pnet now rest st1 count
    | none => purgeLoop pnet now rest st1 count

/-- Embedding of `KVStore.purge_expired`. -/
def KVStore.purgeExpired {F J P : Type} (pnet : PyStr → Nat → PropResp)
    (st : StoreState F J P) (now : Int) : StoreState F J P × Nat :=
  let r := purgeLoop pnet now (MemoryBackend.keys st.backend) st 0
  ({ r.1 with lastPurge := now }, r.2)

/-- Embedding of `KVStore._maybe_purge_expired`. -/
def KVStore.maybePurge {F J P : Type} (pnet : PyStr → Nat → PropResp)
    (st : StoreState F J P) (now : Int) : StoreState F J P :=
  if st.autoPurge && decide (now - st.lastPurge ≥ st.purgeInterval) then
    let r := KVStore.purgeExpired pnet st now
    { r.1 with lastPurge := now }
  else st

/-- Embedding of `KVStore.set`: lazy purge, TTL defaulting, envelope
construction with auto-detected class, backend write (whose set callback
re-writes the cache, exceptions swallowed), the store's own cache write
(`none` when it raises), and propagation. -/
def KVStore.set {F J P : Type} (L : PyLibs F J P) (pnet : PyStr → Nat → PropResp)
    (st : StoreState F J P) (k : Key) (inp : SetInput F J P) (ttl : Option Int)
    (metadata : List (PyStr × PyStr)) (now : Int) : Option (StoreState F J P) :=
  let st0 := KVStore.maybePurge pnet st now
  let ttl1 := match ttl with | none => st0.defaultTtl | some t => some t
  let value : PyValue F J P :=
    { payload := detectPayload L inp, createdAt := now, ttl := ttl1, metadata := metadata }
  let b1 := MemoryBackend.set st0.backend k value
  let c1 := match LRUCache.set st0.cache k value with
    | some c => c
    | none => st0.cache
  match LRUCache.set c1 k value with
  | none => none
  | some c2 =>
    let st1 := { st0 with backend := b1, cache := c2 }
    match st1.distributed with
    | none => some st1
    | some cl =>
      some { st1 with distributed := some (DistClient.propagateSet pnet cl k value).2 }

/-- The shared resolution block of `KVStore.get`, `KVStore.get_with_metadata`
and `KVStore.exists`: cache lookup first, then backend lookup with a cache
refill (`none` is a raised exception from the refill); returns the
resolved envelope, if any, with the state after resolution. -/
def storeResolve {F J P : Type} (st0 : StoreState F J P) (k : Key) (now : Int) :
    Option (Option (PyValue F J P) × StoreState F J P) :=
  let g := LRUCache.get st0.cache k now
  let st1 := { st0 with cache := g.2 }
  match g.1 with
  | some v => some (some v, st1)
  | none =>
    let gb := MemoryBackend.get st1.backend k
    let st2 := { st1 with backend := gb.2 }
    match gb.1 with
    | none => some (none, st2)
    | some v =>
      match LRUCache.set st2.cache k v with
      | none => none
      | some c2 => some (some v, { st2 with cache := c2 })

/-- Embedding of `KVStore.get` with no `expected_type` check, the current
time passed explicitly and the caller's default abstracted as the
`GetResult.deflt` outcome; `none` is a raised exception from the cache
refill. -/
def KVStore.get {F J P : Type} (pnet : PyStr → Nat → PropResp)
    (st : StoreState F J P) (k : Key) (includeExpired : Bool) (now : Int) :
    Option (GetResult F J P × StoreState F J P) :=
  let st0 := KVStore.maybePurge pnet st now
  match storeResolve st0 k now with
  | none => none
  | some (none, st2) => some (.deflt, st2)
  | some (some v, st3) =>
    if !includeExpired && v.isExpired now then
      some (.deflt, (KVStore.delete pnet st3 k).2)
    else some (.value v.payload, st3)

/-- Embedding of `KVStore.exists`. -/
def KVStore.exists {F J P : Type} (pnet : PyStr → Nat → PropResp)
    (st : StoreState F J P) (k : Key) (now : Int) :
    Option (Bool × StoreState F J P) :=
  let st0 := KVStore.maybePurge pnet st now
  match storeResolve st0 k now with
  | none => none
  | some (none, st2) => some (false, st2)
  | some (some v, st3) =>
    if v.isExpired now then some (false, (KVStore.delete pnet st3 k).2)
    else some (true, st3)

/-- Embedding of `KVStore.clear`. -/
def KVStore.clear {F J P : Type} (pnet : PyStr → Nat → PropResp)
    (st : StoreState F J P) : StoreState F J P :=
  let st1 :=
    { st with
      backend := MemoryBackend.clear st.backend
      cache := LRUCache.clear st.cache }
  match st1.distributed with
  | none => st1
  | some cl =>
    { st1 with distributed := some (DistClient.propagateClear pnet cl).2 }

theorem lookupKey_congr {V : Type} {k k' : Key} (l : List (Key × V))
    (h : k.keyStr = k'.keyStr) : lookupKey k l = lookupKey k' l := by
  induction l with
  | nil => rfl
  | cons e rest ih =>
    obtain ⟨k0, v0⟩ := e
    rw [lookupKey, lookupKey, h, ih]

theorem lookupKey_insertKey_self {V : Type} (k : Key) (v : V) (l : List (Key × V)) :
    lookupKey k (insertKey k v l) = some v := by
  induction l with
  | nil => simp [insertKey, lookupKey]
  | cons e rest ih =>
    obtain ⟨k0, v0⟩ := e
    by_cases hk : k0.keyStr = k.keyStr
    · rw [insertKey, if_pos hk, lookupKey, if_pos hk]
    · rw [insertKey, if_neg hk, lookupKey, if_neg hk, ih]

theorem lruSet_spec {F J P : Type} {st : LRUCacheState F J P} {k : Key}
    {v : PyValue F J P} (hcap : 0 < st.capacity) (hnd : keysNodup st.cache) :
    ∃ c', LRUCache.set st k v = some c' ∧ keysNodup c'.cache ∧
      lookupKey k c'.cache = some v ∧ c'.cache.Sublist (st.cache ++ [(k, v)]) ∧
      c'.capacity = st.capacity := by
  rw [LRUCache.set]
  rcases hlk : lookupKey k st.cache with _ | old
  · simp only [hlk, Option.isSome_none, Bool.false_eq_true, if_false]
    by_cases hfull : st.cache.length ≥ st.capacity
    · rw [if_pos hfull]
      cases hc : st.cache with
      | nil =>
        exfalso
        rw [hc] at hfull
        simp at hfull
        omega
      | cons e tl =>
        rw [hc] at hnd hlk
        refine ⟨_, rfl, ?_, ?_, ?_, rfl⟩
        · rw [keysNodup, List.map_append, List.nodup_append]
          rw [keysNodup, List.map_cons, List.nodup_cons] at hnd
          refine ⟨hnd.2, by simp, ?_⟩
          intro x hx
          simp only [List.map_cons, List.map_nil, List.mem_singleton]
          intro hxe
          rw [lookupKey_eq_none_iff] at hlk
          simp only [List.mem_map] at hx
          obtain ⟨e2, he2, hee⟩ := hx
          exact hlk e2 (List.mem_cons_of_mem _ he2) (by rw [hee, hxe])
        · rw [lookupKey_append]
          have htl : lookupKey k tl = none :=
            lookupKey_none_of_sublist (List.sublist_cons_self e tl) hlk
          rw [htl, lookupKey]
          simp
        · exact List.sublist_cons_self _ _
    · rw [if_neg hfull]
      refine ⟨_, rfl, ?_, ?_, List.Sublist.refl _, rfl⟩
      · have := keysNodup_insertKey (k := k) v hnd
        rw [insertKey_of_absent hlk] at this
        exact this
      · rw [lookupKey_append, hlk, lookupKey]
        simp
  · simp only [hlk, Option.isSome_some, if_true]
    refine ⟨_, rfl, ?_, ?_, ?_, rfl⟩
    · rw [keysNodup, List.map_append, List.nodup_append]
      refine ⟨keysNodup_eraseKey hnd, by simp, ?_⟩
      intro x hx
      simp only [List.map_cons, List.map_nil, List.mem_singleton]
      intro hxe
      have hnone := lookupKey_eraseKey_self (k := k) hnd
      rw [lookupKey_eq_none_iff] at hnone
      simp only [List.mem_map] at hx
      obtain ⟨e2, he2, hee⟩ := hx
      exact hnone e2 he2 (by rw [hee, hxe])
    · rw [lookupKey_append, lookupKey_eraseKey_self hnd, lookupKey]
      simp
    · exact (eraseKey_sublist k st.cache).append (List.Sublist.refl _)

theorem lruDelete_spec {F J P : Type} (st : LRUCacheState F J P) (k : Key) :
    ((LRUCache.delete st k).2.cache).Sublist st.cache ∧
      (LRUCache.delete st k).2.capacity = st.capacity ∧
      (keysNodup st.cache → keysNodup (LRUCache.delete st k).2.cache) ∧
      (keysNodup st.cache → lookupKey k (LRUCache.delete st k).2.cache = none) ∧
      (∀ k', k'.keyStr ≠ k.keyStr →
        lookupKey k' (LRUCache.delete st k).2.cache = lookupKey k' st.cache) := by
  by_cases h : (lookupKey k st.cache).isSome
  · rw [LRUCache.delete, if_pos h]
    exact ⟨eraseKey_sublist k st.cache, rfl, fun hh => keysNodup_eraseKey hh,
      fun hh => lookupKey_eraseKey_self hh, fun k' hk' => lookupKey_eraseKey_ne hk'⟩
  · rw [LRUCache.delete, if_neg h]
    have hnone : lookupKey k st.cache = none := by
      rwa [Option.not_isSome_iff_eq_none] at h
    exact ⟨List.Sublist.refl _, rfl, fun hh => hh, fun _ => hnone, fun _ _ => rfl⟩

theorem lruGet_state {F J P : Type} (st : LRUCacheState F J P) (k : Key) (now : Int) :
    (keysNodup st.cache → keysNodup (LRUCache.get st k now).2.cache) ∧
      (LRUCache.get st k now).2.capacity = st.capacity := by
  rw [LRUCache.get]
  rcases hlk : lookupKey k st.cache with _ | v
  · exact ⟨fun h => h, rfl⟩
  · dsimp only
    by_cases hexp : (st.ttlCheck && v.isExpired now) = true
    · rw [if_pos hexp]
      exact ⟨fun h => keysNodup_eraseKey h, rfl⟩
    · rw [if_neg hexp]
      constructor
      · intro h
        rw [keysNodup]
        have hperm : (moveToEnd k st.cache).Perm st.cache := by
          clear hlk
          induction st.cache with
          | nil => exact List.Perm.refl _
          | cons e rest ih =>
            obtain ⟨k0, v0⟩ := e
            by_cases hk : k0.keyStr = k.keyStr
            · rw [moveToEnd, if_pos hk]
              exact (List.perm_append_singleton _ _).trans (List.Perm.refl _)
            · rw [moveToEnd, if_neg hk]
              exact ih.cons _
        have h2 : (st.cache.map (fun e => e.1.keyStr)).Nodup := h
        exact ((hperm.map (fun e => e.1.keyStr)).nodup_iff).mpr h2
      · rfl

theorem memDelete_spec {F J P : Type} (b : MemoryBackendState F J P) (k : Key)
    (hnd : keysNodup b.store) :
    (MemoryBackend.delete b k).1 = (lookupKey k b.store).isSome ∧
      lookupKey k (MemoryBackend.delete b k).2.store = none ∧
      keysNodup (MemoryBackend.delete b k).2.store ∧
      (MemoryBackend.delete b k).2.store.Sublist b.store ∧
      (∀ k', k'.keyStr ≠ k.keyStr →
        lookupKey k' (MemoryBackend.delete b k).2.store = lookupKey k' b.store) := by
  by_cases h : (lookupKey k b.store).isSome
  · rw [MemoryBackend.delete, if_pos h]
    exact ⟨h.symm, lookupKey_eraseKey_self hnd, keysNodup_eraseKey hnd,
      eraseKey_sublist k b.store, fun k' hk' => lookupKey_eraseKey_ne hk'⟩
  · rw [MemoryBackend.delete, if_neg h]
    have hnone : lookupKey k b.store = none := by
      rwa [Option.not_isSome_iff_eq_none] at h
    exact ⟨by rw [hnone]; rfl, hnone, hnd, List.Sublist.refl _, fun _ _ => rfl⟩

theorem storeDelete_eq {F J P : Type} (pnet : PyStr → Nat → PropResp)
    (st : StoreState F J P) (k : Key) :
    (KVStore.delete pnet st k).1 = (MemoryBackend.delete st.backend k).1 ∧
      (KVStore.delete pnet st k).2.backend = (MemoryBackend.delete st.backend k).2 ∧
      (KVStore.delete pnet st k).2.cache =
        (LRUCache.delete
          (if (MemoryBackend.delete st.backend k).1 then (LRUCache.delete st.cache k).2
            else st.cache) k).2 ∧
      (KVStore.delete pnet st k).2.defaultTtl = st.defaultTtl ∧
      (KVStore.delete pnet st k).2.autoPurge = st.autoPurge ∧
      (KVStore.delete pnet st k).2.purgeInterval = st.purgeInterval ∧
      (KVStore.delete pnet st k).2.lastPurge = st.lastPurge ∧
      (KVStore.delete pnet st k).2.distributed =
        (match st.distributed with
          | none => none
          | some cl => some (DistClient.propagateDelete pnet cl k).2) := by
  rcases hd : st.distributed with _ | c <;>
    simp [KVStore.delete, hd]

theorem storeDelete_spec {F J P : Type} (pnet : PyStr → Nat → PropResp)
    (st : StoreState F J P) (k : Key)
    (hndb : keysNodup st.backend.store) (hndc : keysNodup st.cache.cache) :
    (KVStore.delete pnet st k).1 = (lookupKey k st.backend.store).isSome ∧
      lookupKey k (KVStore.delete pnet st k).2.backend.store = none ∧
      lookupKey k (KVStore.delete pnet st k).2.cache.cache = none ∧
      keysNodup (KVStore.delete pnet st k).2.backend.store ∧
      keysNodup (KVStore.delete pnet st k).2.cache.cache ∧
      (KVStore.delete pnet st k).2.backend.store.Sublist st.backend.store ∧
      (KVStore.delete pnet st k).2.cache.cache.Sublist st.cache.cache ∧
      (∀ k', k'.keyStr ≠ k.keyStr →
        lookupKey k' (KVStore.delete pnet st k).2.backend.store =
          lookupKey k' st.backend.store ∧
        lookupKey k' (KVStore.delete pnet st k).2.cache.cache =
          lookupKey k' st.cache.cache) ∧
      (KVStore.delete pnet st k).2.cache.capacity = st.cache.capacity := by
  obtain ⟨he1, he2, he3, _, _, _, _, _⟩ := storeDelete_eq pnet st k
  obtain ⟨hm1, hm2, hm3, hm4, hm5⟩ := memDelete_spec st.backend k hndb
  set c1 := if (MemoryBackend.delete st.backend k).1 then (LRUCache.delete st.cache k).2
    else st.cache with hc1
  have hc1sub : c1.cache.Sublist st.cache.cache := by
    rw [hc1]
    split
    · exact (lruDelete_spec st.cache k).1
    · exact List.Sublist.refl _
  have hc1nd : keysNodup c1.cache := by
    rw [hc1]
    split
    · exact (lruDelete_spec st.cache k).2.2.1 hndc
    · exact hndc
  have hc1cap : c1.capacity = st.cache.capacity := by
    rw [hc1]
    split
    · exact (lruDelete_spec st.cache k).2.1
    · rfl
  have hc1ne : ∀ k', k'.keyStr ≠ k.keyStr →
      lookupKey k' c1.cache = lookupKey k' st.cache.cache := by
    intro k' hk'
    rw [hc1]
    split
    · exact (lruDelete_spec st.cache k).2.2.2.2 k' hk'
    · rfl
  obtain ⟨hd1, hd2, hd3, hd4, hd5⟩ := lruDelete_spec c1 k
  refine ⟨?_, ?_, ?_, ?_, ?_, ?_, ?_, ?_, ?_⟩
  · rw [he1, hm1]
  · rw [he2]; exact hm2
  · rw [he3]; exact hd4 hc1nd
  · rw [he2]; exact hm3
  · rw [he3]; exact hd3 hc1nd
  · rw [he2]; exact hm4
  · rw [he3]; exact hd1.trans hc1sub
  · intro k' hk'
    refine ⟨?_, ?_⟩
    · rw [he2]; exact hm5 k' hk'
    · rw [he3, hd5 k' hk', hc1ne k' hk']
  · rw [he3, hd2, hc1cap]

theorem memGet_spec {F J P : Type} (b : MemoryBackendState F J P) (k : Key) :
    (MemoryBackend.get b k).2.store = b.store ∧
      (MemoryBackend.get b k).1 = lookupKey k b.store := by
  rw [MemoryBackend.get]
  rcases h : lookupKey k b.store with _ | v
  · exact ⟨rfl, rfl⟩
  · exact ⟨rfl, rfl⟩

theorem purgeLoop_inv {F J P : Type} (pnet : PyStr → Nat → PropResp) (now : Int)
    (ks : List Key) :
    ∀ (st : StoreState F J P) (count : Nat),
      keysNodup st.backend.store → keysNodup st.cache.cache →
      (purgeLoop pnet now ks st count).1.backend.store.Sublist st.backend.store ∧
      (purgeLoop pnet now ks st count).1.cache.cache.Sublist st.cache.cache ∧
      keysNodup (purgeLoop pnet now ks st count).1.backend.store ∧
      keysNodup (purgeLoop pnet now ks st count).1.cache.cache ∧
      (purgeLoop pnet now ks st count).1.cache.capacity = st.cache.capacity ∧
      (purgeLoop pnet now ks st count).1.defaultTtl = st.defaultTtl := by
  induction ks with
  | nil =>
    intro st count hndb hndc
    exact ⟨List.Sublist.refl _, List.Sublist.refl _, hndb, hndc, rfl, rfl⟩
  | cons k1 rest ih =>
    intro st count hndb hndc
    rw [purgeLoop]
    obtain ⟨hg1, hg2⟩ := memGet_spec st.backend k1
    rcases hg : (MemoryBackend.get st.backend k1).1 with _ | v
    · dsimp only
      have hi := ih { st with backend := (MemoryBackend.get st.backend k1).2 } count
        (by rw [keysNodup, hg1]; exact hndb) hndc
      rw [hg1] at hi
      exact hi
    · dsimp only
      by_cases hexp : v.isExpired now = true
      · rw [if_pos hexp]
        set st1 : StoreState F J P := { st with backend := (MemoryBackend.get st.backend k1).2 }
          with hst1
        have hndb1 : keysNodup st1.backend.store := by
          rw [hst1]; rw [keysNodup, hg1]; exact hndb
        have hd := storeDelete_spec pnet st1 k1 hndb1 hndc
        have hi := ih (KVStore.delete pnet st1 k1).2 (count + 1)
          hd.2.2.2.1 hd.2.2.2.2.1
        refine ⟨?_, ?_, hi.2.2.1, hi.2.2.2.1, ?_, ?_⟩
        · apply hi.1.trans
          apply hd.2.2.2.2.2.1.trans
          rw [hst1]
          exact hg1 ▸ List.Sublist.refl _
        · exact hi.2.1.trans hd.2.2.2.2.2.2.1
        · rw [hi.2.2.2.2.1, hd.2.2.2.2.2.2.2.2]
        · rw [hi.2.2.2.2.2, (storeDelete_eq pnet st1 k1).2.2.2.1]
      · rw [if_neg hexp]
        have hi := ih { st with backend := (MemoryBackend.get st.backend k1).2 } count
          (by rw [keysNodup, hg1]; exact hndb) hndc
        rw [hg1] at hi
        exact hi

theorem purgeLoop_removes {F J P : Type} (pnet : PyStr → Nat → PropResp) (now : Int)
    (ks : List Key) :
    ∀ (st : StoreState F J P) (count : Nat) (k : Key) (v : PyValue F J P),
      keysNodup st.backend.store → keysNodup st.cache.cache →
      (∃ k0, k0 ∈ ks ∧ k0.keyStr = k.keyStr) →
      lookupKey k st.backend.store = some v → v.isExpired now = true →
      lookupKey k (purgeLoop pnet now ks st count).1.backend.store = none ∧
      lookupKey k (purgeLoop pnet now ks st count).1.cache.cache = none := by
  induction ks with
  | nil =>
    intro st count k v _ _ hex _ _
    obtain ⟨k0, hk0, _⟩ := hex
    simp at hk0
  | cons k1 rest ih =>
    intro st count k v hndb hndc hex hb hexp
    rw [purgeLoop]
    obtain ⟨hg1, hg2⟩ := memGet_spec st.backend k1
    by_cases hkk : k1.keyStr = k.keyStr
    · have hglk : (MemoryBackend.get st.backend k1).1 = some v := by
        rw [hg2, lookupKey_congr st.backend.store hkk, hb]
      rw [hglk]
      dsimp only
      rw [if_pos hexp]
      set st1 : StoreState F J P := { st with backend := (MemoryBackend.get st.backend k1).2 }
        with hst1
      have hndb1 : keysNodup st1.backend.store := by
        rw [hst1]; rw [keysNodup, hg1]; exact hndb
      have hd := storeDelete_spec pnet st1 k1 hndb1 hndc
      have hpl := purgeLoop_inv pnet now rest (KVStore.delete pnet st1 k1).2 (count + 1)
        hd.2.2.2.1 hd.2.2.2.2.1
      constructor
      · apply lookupKey_none_of_sublist hpl.1
        rw [lookupKey_congr _ hkk.symm]
        exact hd.2.1
      · apply lookupKey_none_of_sublist hpl.2.1
        rw [lookupKey_congr _ hkk.symm]
        exact hd.2.2.1
    · have hex2 : ∃ k0, k0 ∈ rest ∧ k0.keyStr = k.keyStr := by
        obtain ⟨k0, hk0, hks0⟩ := hex
        rcases List.mem_cons.mp hk0 with heq | htail
        · exact absurd (heq ▸ hks0) hkk
        · exact ⟨k0, htail, hks0⟩
      rcases hg : (MemoryBackend.get st.backend k1).1 with _ | v1
      · dsimp only
        have hi := ih { st with backend := (MemoryBackend.get st.backend k1).2 } count k v
          (by rw [keysNodup, hg1]; exact hndb) hndc hex2 (by rw [show ({ st with backend := (MemoryBackend.get st.backend k1).2 } : StoreState F J P).backend.store = st.backend.store from hg1]; exact hb) hexp
        exact hi
      · dsimp only
        by_cases hexp1 : v1.isExpired now = true
        · rw [if_pos hexp1]
          set st1 : StoreState F J P :=
            { st with backend := (MemoryBackend.get st.backend k1).2 } with hst1
          have hndb1 : keysNodup st1.backend.store := by
            rw [hst1]; rw [keysNodup, hg1]; exact hndb
          have hd := storeDelete_spec pnet st1 k1 hndb1 hndc
          have hbpres := (hd.2.2.2.2.2.2.2.1 k (fun hc => hkk hc.symm)).1
          have hcpres := (hd.2.2.2.2.2.2.2.1 k (fun hc => hkk hc.symm)).2
          apply ih (KVStore.delete pnet st1 k1).2 (count + 1) k v
            hd.2.2.2.1 hd.2.2.2.2.1 hex2
          · rw [hbpres, hst1]
            rw [show ({ st with backend := (MemoryBackend.get st.backend k1).2 } :
              StoreState F J P).backend.store = st.backend.store from hg1]
            exact hb
          · exact hexp
        · rw [if_neg hexp1]
          exact ih { st with backend := (MemoryBackend.get st.backend k1).2 } count k v
            (by rw [keysNodup, hg1]; exact hndb) hndc hex2
            (by rw [show ({ st with backend := (MemoryBackend.get st.backend k1).2 } :
              StoreState F J P).backend.store = st.backend.store from hg1]; exact hb) hexp

theorem moveToEnd_perm {V : Type} (k : Key) (l : List (Key × V)) :
    (moveToEnd k l).Perm l := by
  induction l with
  | nil => exact List.Perm.refl _
  | cons e rest ih =>
    obtain ⟨k0, v0⟩ := e
    by_cases hk : k0.keyStr = k.keyStr
    · rw [moveToEnd, if_pos hk]
      exact List.perm_append_singleton _ _
    · rw [moveToEnd, if_neg hk]
      exact ih.cons _

theorem keysNodup_moveToEnd {V : Type} (k : Key) {l : List (Key × V)}
    (h : keysNodup l) : keysNodup (moveToEnd k l) := by
  have h2 : (l.map (fun e => e.1.keyStr)).Nodup := h
  exact (((moveToEnd_perm k l).map (fun e => e.1.keyStr)).nodup_iff).mpr h2

theorem storeResolve_absent {F J P : Type} (st0 : StoreState F J P) (k : Key)
    (now : Int)
    (hb : lookupKey k st0.backend.store = none)
    (hc : lookupKey k st0.cache.cache = none) :
    storeResolve st0 k now =
      some (none,
        { st0 with cache := { st0.cache with misses := st0.cache.misses + 1 } }) := by
  simp only [storeResolve, LRUCache.get, hc]
  simp only [MemoryBackend.get, hb]

theorem storeResolve_present {F J P : Type} (st0 : StoreState F J P) (k : Key)
    (v : PyValue F J P) (now : Int)
    (hndc : keysNodup st0.cache.cache)
    (hcap : 0 < st0.cache.capacity)
    (hb : lookupKey k st0.backend.store = some v)
    (hc : ∀ w, lookupKey k st0.cache.cache = some w → w = v) :
    ∃ st3, storeResolve st0 k now = some (some v, st3) ∧
      st3.backend.store = st0.backend.store ∧
      keysNodup st3.cache.cache ∧
      st3.cache.capacity = st0.cache.capacity ∧
      st3.distributed = st0.distributed ∧
      st3.defaultTtl = st0.defaultTtl ∧
      st3.autoPurge = st0.autoPurge ∧
      st3.purgeInterval = st0.purgeInterval ∧
      st3.lastPurge = st0.lastPurge := by
  rcases hclk : lookupKey k st0.cache.cache with _ | w
  · simp only [storeResolve, LRUCache.get, hclk]
    simp only [MemoryBackend.get, hb]
    obtain ⟨c2, hc2eq, hc2nd, hc2lk, hc2sub, hc2cap⟩ :=
      @lruSet_spec F J P { st0.cache with misses := st0.cache.misses + 1 }
        k v hcap hndc
    rw [hc2eq]
    exact ⟨_, rfl, rfl, hc2nd, hc2cap, rfl, rfl, rfl, rfl, rfl⟩
  · have hw := hc w hclk
    subst hw
    simp only [storeResolve, LRUCache.get, hclk]
    by_cases htc : (st0.cache.ttlCheck && w.isExpired now) = true
    · rw [if_pos htc]
      simp only [MemoryBackend.get, hb]
      obtain ⟨c2, hc2eq, hc2nd, hc2lk, hc2sub, hc2cap⟩ :=
        @lruSet_spec F J P
          { st0.cache with
            cache := eraseKey k st0.cache.cache
            expires := st0.cache.expires + 1
            misses := st0.cache.misses + 1 }
          k w hcap (keysNodup_eraseKey hndc)
      rw [hc2eq]
      exact ⟨_, rfl, rfl, hc2nd, hc2cap, rfl, rfl, rfl, rfl, rfl⟩
    · rw [if_neg htc]
      exact ⟨_, rfl, rfl, keysNodup_moveToEnd k hndc, rfl, rfl, rfl, rfl, rfl, rfl⟩

theorem maybePurge_spec {F J P : Type} (pnet : PyStr → Nat → PropResp)
    (st : StoreState F J P) (now : Int)
    (hndb : keysNodup st.backend.store) (hndc : keysNodup st.cache.cache) :
    (KVStore.maybePurge pnet st now).backend.store.Sublist st.backend.store ∧
      (KVStore.maybePurge pnet st now).cache.cache.Sublist st.cache.cache ∧
      keysNodup (KVStore.maybePurge pnet st now).backend.store ∧
      keysNodup (KVStore.maybePurge pnet st now).cache.cache ∧
      (KVStore.maybePurge pnet st now).cache.capacity = st.cache.capacity ∧
      (KVStore.maybePurge pnet st now).defaultTtl = st.defaultTtl ∧
      ((st.autoPurge && decide (now - st.lastPurge ≥ st.purgeInterval)) = false →
        KVStore.maybePurge pnet st now = st) := by
  rw [KVStore.maybePurge]
  by_cases htrig : (st.autoPurge && decide (now - st.lastPurge ≥ st.purgeInterval)) = true
  · rw [if_pos htrig]
    have hpl := purgeLoop_inv pnet now (MemoryBackend.keys st.backend) st 0 hndb hndc
    rw [KVStore.purgeExpired]
    refine ⟨hpl.1, hpl.2.1, hpl.2.2.1, hpl.2.2.2.1, hpl.2.2.2.2.1, hpl.2.2.2.2.2, ?_⟩
    intro hfalse
    rw [htrig] at hfalse
    exact absurd hfalse (by simp)
  · rw [if_neg htrig]
    exact ⟨List.Sublist.refl _, List.Sublist.refl _, hndb, hndc, rfl, rfl, fun _ => rfl⟩

theorem maybePurge_removes {F J P : Type} (pnet : PyStr → Nat → PropResp)
    (st : StoreState F J P) (now : Int) (k : Key) (v : PyValue F J P)
    (hndb : keysNodup st.backend.store) (hndc : keysNodup st.cache.cache)
    (htrig : (st.autoPurge && decide (now - st.lastPurge ≥ st.purgeInterval)) = true)
    (hb : lookupKey k st.backend.store = some v) (hexp : v.isExpired now = true) :
    lookupKey k (KVStore.maybePurge pnet st now).backend.store = none ∧
      lookupKey k (KVStore.maybePurge pnet st now).cache.cache = none := by
  rw [KVStore.maybePurge, if_pos htrig, KVStore.purgeExpired]
  obtain ⟨k0, hmem, hks⟩ := lookupKey_mem hb
  exact purgeLoop_removes pnet now (MemoryBackend.keys st.backend) st 0 k v hndb hndc
    ⟨k0, List.mem_map_of_mem (fun e => e.1) hmem, hks⟩ hb hexp

theorem storeExists_false {F J P : Type} (pnet : PyStr → Nat → PropResp)
    (st : StoreState F J P) (k : Key) (now : Int)
    (hndb : keysNodup st.backend.store) (hndc : keysNodup st.cache.cache)
    (hb : lookupKey k st.backend.store = none)
    (hc : lookupKey k st.cache.cache = none) :
    ∃ st'', KVStore.exists pnet st k now = some (false, st'') := by
  have hmp := maybePurge_spec pnet st now hndb hndc
  have hb0 : lookupKey k (KVStore.maybePurge pnet st now).backend.store = none :=
    lookupKey_none_of_sublist hmp.1 hb
  have hc0 : lookupKey k (KVStore.maybePurge pnet st now).cache.cache = none :=
    lookupKey_none_of_sublist hmp.2.1 hc
  have hres := storeResolve_absent (KVStore.maybePurge pnet st now) k now hb0 hc0
  rw [KVStore.exists, hres]
  exact ⟨_, rfl⟩

/-- C3: a `get` of a key whose resolved envelope is expired (with
`include_expired` false) returns the caller-supplied default, removes the
key from both the backend and the cache, makes a subsequent `exists`
return false at any time, and — when the lazy purge sweep does not fire
and a distributed client with queue room is attached — enqueues the
delete for propagation. -/
theorem claim_C3_get_expired_deletes {F J P : Type} (pnet : PyStr → Nat → PropResp)
    (st : StoreState F J P) (k : Key) (v : PyValue F J P) (now : Int)
    (hndb : keysNodup st.backend.store) (hndc : keysNodup st.cache.cache)
    (hcap : 0 < st.cache.capacity)
    (hb : lookupKey k st.backend.store = some v)
    (hc : ∀ w, lookupKey k st.cache.cache = some w → w = v)
    (hexp : v.isExpired now = true) :
    ∃ st', KVStore.get pnet st k false now = some (GetResult.deflt, st') ∧
      lookupKey k st'.backend.store = none ∧
      lookupKey k st'.cache.cache = none ∧
      (∀ now', ∃ st'', KVStore.exists pnet st' k now' = some (false, st'')) ∧
      ((st.autoPurge && decide (now - st.lastPurge ≥ st.purgeInterval)) = false →
        ∀ c, st.distributed = some c → c.asyncUpdates = true → queueFull c = false →
          st'.distributed = some { c with queue := c.queue ++ [UpdateOp.udel k] }) := by
  have hmp := maybePurge_spec pnet st now hndb hndc
  by_cases htrig : (st.autoPurge && decide (now - st.lastPurge ≥ st.purgeInterval)) = true
  · have hrm := maybePurge_removes pnet st now k v hndb hndc htrig hb hexp
    have hres := storeResolve_absent (KVStore.maybePurge pnet st now) k now hrm.1 hrm.2
    rw [KVStore.get, hres]
    refine ⟨_, rfl, hrm.1, hrm.2, ?_, ?_⟩
    · intro now'
      exact storeExists_false pnet _ k now' hmp.2.2.1 hmp.2.2.2.1 hrm.1 hrm.2
    · intro hfalse
      rw [htrig] at hfalse
      exact absurd hfalse (by simp)
  · have hfb : (st.autoPurge && decide (now - st.lastPurge ≥ st.purgeInterval)) = false := by
      cases h2 : (st.autoPurge && decide (now - st.lastPurge ≥ st.purgeInterval))
      · rfl
      · exact absurd h2 htrig
    have hmp0 := hmp.2.2.2.2.2.2 hfb
    obtain ⟨st3, hres, hst3b, hst3nd, hst3cap, hst3d, _, _, _, _⟩ :=
      storeResolve_present st k v now hndc hcap hb hc
    rw [KVStore.get, hmp0, hres]
    dsimp only
    rw [if_pos (show (!false && v.isExpired now) = true by simp [hexp])]
    have hndb3 : keysNodup st3.backend.store := by
      rw [keysNodup, hst3b]; exact hndb
    have hd := storeDelete_spec pnet st3 k hndb3 hst3nd
    refine ⟨_, rfl, hd.2.1, hd.2.2.1, ?_, ?_⟩
    · intro now'
      exact storeExists_false pnet _ k now' hd.2.2.2.1 hd.2.2.2.2.1 hd.2.1 hd.2.2.1
    · intro _ c hcsome hasync hfull
      have hdist := (storeDelete_eq pnet st3 k).2.2.2.2.2.2.2
      rw [hdist, hst3d, hcsome]
      dsimp only
      have hnq : ¬ queueFull c = true := by
        intro hq
        rw [hfull] at hq
        exact Bool.false_ne_true hq
      rw [DistClient.propagateDelete, if_pos hasync, if_neg hnq]

/-- A propagation network where every POST succeeds, used by witnesses. -/
def wPnet : PyStr → Nat → PropResp := fun _ _ => PropResp.psucc

/-- A concrete distributed client with an empty async queue. -/
def wClient : DistClientState Unit Unit Unit where
  nodes := ["http://n1".toList]
  retryInterval := 1
  retryAttempts := 2
  asyncUpdates := true
  maxQueueSize := 10
  queue := []
  propagationsSent := 0
  propagationsFailed := 0
  readsSent := 0
  readsFailed := 0
  nodesDown := []

/-- A concrete store holding one expired entry under key "x", with the
client attached and the lazy purge disabled. -/
def wStore : StoreState Unit Unit Unit where
  backend :=
    { store := [(wKey "x", wVal "1" 0 (some 5))]
      reads := 0
      writes := 1
      deletes := 0 }
  cache :=
    { capacity := 100
      ttlCheck := true
      cache := [(wKey "x", wVal "1" 0 (some 5))]
      hits := 0
      misses := 0
      inserts := 1
      evictions := 0
      expires := 0 }
  distributed := some wClient
  defaultTtl := none
  autoPurge := false
  purgeInterval := 60
  lastPurge := 0

/-- C3 witness: getting the expired "x" at time 10 returns the default,
removes it everywhere, makes `exists` false and enqueues the delete. -/
theorem claim_C3_get_expired_deletes_witness :
    ∃ st', KVStore.get wPnet wStore (wKey "x") false 10 =
        some (GetResult.deflt, st') ∧
      lookupKey (wKey "x") st'.backend.store = none ∧
      lookupKey (wKey "x") st'.cache.cache = none ∧
      (∀ now', ∃ st'', KVStore.exists wPnet st' (wKey "x") now' = some (false, st'')) ∧
      ((wStore.autoPurge && decide (10 - wStore.lastPurge ≥ wStore.purgeInterval)) = false →
        ∀ c, wStore.distributed = some c → c.asyncUpdates = true → queueFull c = false →
          st'.distributed =
            some { c with queue := c.queue ++ [UpdateOp.udel (wKey "x")] }) :=
  claim_C3_get_expired_deletes wPnet wStore (wKey "x") (wVal "1" 0 (some 5)) 10
    (by unfold keysNodup; decide) (by unfold keysNodup; decide) (by decide) rfl
    (fun w hw => by
      rw [show lookupKey (wKey "x") wStore.cache.cache = some (wVal "1" 0 (some 5))
        from rfl] at hw
      exact (Option.some.inj hw).symm)
    (by decide)

/-- C9: with any distributed client state attached and any propagation
network behavior — unreachable peers, exhausted retries, a full queue —
`KVStore.set` completes the local mutation (the envelope is in backend and
cache) and `KVStore.delete` returns its boolean and removes the key
locally; no propagation outcome raises into the caller's mutation. -/
theorem claim_C9_local_mutation_succeeds {F J P : Type} (L : PyLibs F J P)
    (pnet : PyStr → Nat → PropResp) (st : StoreState F J P) (k kd : Key)
    (inp : SetInput F J P) (ttl : Option Int) (md : List (PyStr × PyStr)) (now : Int)
    (hndb : keysNodup st.backend.store) (hndc : keysNodup st.cache.cache)
    (hcap : 0 < st.cache.capacity) :
    (∃ st', KVStore.set L pnet st k inp ttl md now = some st' ∧
      lookupKey k st'.backend.store = some
        { payload := detectPayload L inp, createdAt := now,
          ttl := (match ttl with | none => st.defaultTtl | some t => some t),
          metadata := md } ∧
      lookupKey k st'.cache.cache = some
        { payload := detectPayload L inp, createdAt := now,
          ttl := (match ttl with | none => st.defaultTtl | some t => some t),
          metadata := md }) ∧
    ((KVStore.delete pnet st kd).1 = (lookupKey kd st.backend.store).isSome ∧
      lookupKey kd (KVStore.delete pnet st kd).2.backend.store = none ∧
      lookupKey kd (KVStore.delete pnet st kd).2.cache.cache = none) := by
  have hmp := maybePurge_spec pnet st now hndb hndc
  constructor
  · have hcap0 : 0 < (KVStore.maybePurge pnet st now).cache.capacity := by
      rw [hmp.2.2.2.2.1]; exact hcap
    simp only [KVStore.set]
    rw [hmp.2.2.2.2.2.1]
    set mval : PyValue F J P :=
      { payload := detectPayload L inp
        createdAt := now
        ttl := (match ttl with | none => st.defaultTtl | some t => some t)
        metadata := md } with hmval
    obtain ⟨cA, hcAeq, hcAnd, hcAlk, hcAsub, hcAcap⟩ :=
      @lruSet_spec F J P (KVStore.maybePurge pnet st now).cache k mval
        hcap0 hmp.2.2.2.1
    rw [hcAeq]
    dsimp only
    have hcapA : 0 < cA.capacity := by rw [hcAcap]; exact hcap0
    obtain ⟨cB, hcBeq, hcBnd, hcBlk, hcBsub, hcBcap⟩ :=
      @lruSet_spec F J P cA k mval hcapA hcAnd
    rw [hcBeq]
    dsimp only
    rcases hd0 : (KVStore.maybePurge pnet st now).distributed with _ | cl
    · exact ⟨_, rfl, lookupKey_insertKey_self _ _ _, hcBlk⟩
    · exact ⟨_, rfl, lookupKey_insertKey_self _ _ _, hcBlk⟩
  · have hd := storeDelete_spec pnet st kd hndb hndc
    exact ⟨hd.1, hd.2.1, hd.2.2.1⟩

/-- C9 witness: on the concrete store with an attached client, setting
"y" lands the envelope in backend and cache, and deleting the present
key "x" returns true and removes it locally. -/
theorem claim_C9_local_mutation_succeeds_witness :
    (∃ st', KVStore.set wLibs wPnet wStore (wKey "y")
        (SetInput.inPayload (PyPayload.pstr "v".toList)) (some 30) [] 10 = some st' ∧
      lookupKey (wKey "y") st'.backend.store = some
        { payload := PyPayload.pstr "v".toList
          createdAt := 10
          ttl := some 30
          metadata := [] } ∧
      lookupKey (wKey "y") st'.cache.cache = some
        { payload := PyPayload.pstr "v".toList
          createdAt := 10
          ttl := some 30
          metadata := [] }) ∧
    ((KVStore.delete wPnet wStore (wKey "x")).1 = true ∧
      lookupKey (wKey "x") (KVStore.delete wPnet wStore (wKey "x")).2.backend.store = none ∧
      lookupKey (wKey "x") (KVStore.delete wPnet wStore (wKey "x")).2.cache.cache = none) :=
  claim_C9_local_mutation_succeeds wLibs wPnet wStore (wKey "y") (wKey "x")
    (SetInput.inPayload (PyPayload.pstr "v".toList)) (some 30) [] 10
    (by unfold keysNodup; decide) (by unfold keysNodup; decide) (by decide)

/-! ### Remote reads (`DistributedClient.get_remote`)

Inbound HTTP is again an external collaborator: a read network behavior
maps a node URL and an attempt index to the outcome of one GET to that
node's key endpoint. -/

/-- Outcome of one GET: HTTP 200 with the parsed JSON body (the value
dictionary the peer serves), HTTP 404, another status code, or a raised
`RequestException`. -/
inductive GetResp (F : Type) where
  | rok (d : ValueDict F)
  | rnotFound
  | rerrStatus (code : Nat)
  | rexc

/-- Outcome of the per-node retry loop of `get_remote`: an HTTP 200
returns the parsed dictionary, an HTTP 404 returns a definitive absence;
otherwise the loop falls through, `marked` recording whether the
last-attempt bookkeeping (`reads_failed` increment, `nodes_down` add)
fired — it does not when `retry_attempts` is zero, since the `for
attempt in range(...)` body never runs. -/
inductive NodeGetOut (F : Type) where
  | found (d : ValueDict F)
  | absent
  | failed (marked : Bool)

/-- The attempt loop of `get_remote` against one node, from attempt `a`
with `rem` attempts remaining: 200 and 404 return immediately, any other
status or a connection error proceeds to the next attempt (after the
retry sleep), and `rem = 1` means `a` is the final attempt
`retry_attempts - 1`. -/
def getTryNode {F : Type} (rnet : PyStr → Nat → GetResp F) (node : PyStr) :
    Nat → Nat → NodeGetOut F
  | _, 0 => .failed false
  | a, rem + 1 =>
    match rnet node a with
    | .rok d => .found d
    | .rnotFound => .absent
    | _ => if rem = 0 then .failed true else getTryNode rnet node (a + 1) rem

/-- Removing a node from the `nodes_down` set (the source guards the
`set.remove` with a membership test, so removing an absent node is a
no-op). -/
def removeDown (n : PyStr) (l : List PyStr) : List PyStr :=
  l.filter (fun m => decide (¬ m = n))

/-- What one `get_remote` call produces: its return value, the resulting
`nodes_down` set and the increments to `reads_sent`/`reads_failed`,
plus the ghost instrumentation `contacted` listing, in order, the nodes
the loop actually issued requests to (not present in the source; it
records which peers were contacted so short-circuiting is provable). -/
structure GetRemoteOut (F : Type) where
  result : Option (ValueDict F)
  down : List PyStr
  sent : Nat
  failed : Nat
  contacted : List PyStr

/-- The node loop of `get_remote`: skip nodes currently in the down set;
a node answering 200 or 404 is removed from the down set, counts one
sent read and ends the call; a node exhausting its retries is marked
down, counts one failed read and the loop advances; an exhausted node
list returns `None`. -/
def getRemoteLoop {F : Type} (rnet : PyStr → Nat → GetResp F) (retryAttempts : Nat) :
    List PyStr → List PyStr → GetRemoteOut F
  | [], down => { result := none, down := down, sent := 0, failed := 0, contacted := [] }
  | node :: rest, down =>
    if node ∈ down then getRemoteLoop rnet retryAttempts rest down
    else
      match getTryNode rnet node 0 retryAttempts with
      | .found d =>
        { result := some d
          down := removeDown node down
          sent := 1
          failed := 0
          contacted := [node] }
      | .absent =>
        { result := none
          down := removeDown node down
          sent := 1
          failed := 0
          contacted := [node] }
      | .failed marked =>
        let r := getRemoteLoop rnet retryAttempts rest
          (if marked then addDown node down else down)
        { result := r.result
          down := r.down
          sent := r.sent
          failed := if marked then r.failed + 1 else r.failed
          contacted := node :: r.contacted }

/-- Embedding of `DistributedClient.get_remote`: run the node loop over
the configured nodes and fold its bookkeeping into the stats. -/
def DistClient.getRemote {F J P : Type} (rnet : PyStr → Nat → GetResp F)
    (c : DistClientState F J P) : Option (ValueDict F) × DistClientState F J P :=
  let r := getRemoteLoop rnet c.retryAttempts c.nodes c.nodesDown
  (r.result,
    { c with
      nodesDown := r.down
      readsSent := c.readsSent + r.sent
      readsFailed := c.readsFailed + r.failed })

/-- The specification's model of `getRemote`, written from the spec's
words over a per-peer decision oracle: visit the peers in list order,
skipping every peer in the (fixed) down set; at the first peer answering
200 return its parsed value, at the first peer answering 404 return
not-found, in either case contacting no later peer; a peer error
advances to the next peer; if every peer is skipped or fails, return
not-found. Returns the result together with the list of contacted
peers. -/
def getRemoteSpec {F : Type} (decision : PyStr → NodeGetOut F) (down : List PyStr) :
    List PyStr → Option (ValueDict F) × List PyStr
  | [] => (none, [])
  | node :: rest =>
    if node ∈ down then getRemoteSpec decision down rest
    else
      match decision node with
      | .found d => (some d, [node])
      | .absent => (none, [node])
      | .failed _ =>
        let r := getRemoteSpec decision down rest
        (r.1, node :: r.2)

/-- Membership in the down set after adding a node. -/
theorem mem_addDown (n m : PyStr) (l : List PyStr) :
    n ∈ addDown m l ↔ (n ∈ l ∨ n = m) := by
  unfold addDown
  by_cases h : m ∈ l
  · rw [if_pos h]
    constructor
    · exact Or.inl
    · rintro (h1 | h1)
      · exact h1
      · rw [h1]; exact h
  · rw [if_neg h]
    simp [List.mem_append]

/-- The `get_remote` node loop agrees with the spec model: over a
duplicate-free node list, and any down set agreeing with `down0` on the
listed nodes, the loop's return value and its contact trace are those of
`getRemoteSpec` over the per-node decision oracle (the down-set
mutations during the walk never affect a later skip check, because they
only ever add the node just contacted). -/
theorem getRemoteLoop_eq_spec {F : Type} (rnet : PyStr → Nat → GetResp F) (ra : Nat) :
    ∀ (nodes : List PyStr), nodes.Nodup → ∀ (down down0 : List PyStr),
      (∀ n ∈ nodes, (n ∈ down ↔ n ∈ down0)) →
      (getRemoteLoop rnet ra nodes down).result =
        (getRemoteSpec (fun n => getTryNode rnet n 0 ra) down0 nodes).1 ∧
      (getRemoteLoop rnet ra nodes down).contacted =
        (getRemoteSpec (fun n => getTryNode rnet n 0 ra) down0 nodes).2 := by
  intro nodes
  induction nodes with
  | nil => intro _ down down0 _; exact ⟨rfl, rfl⟩
  | cons node rest ih =>
    intro hnd down down0 hagree
    have hnotin : node ∉ rest := (List.nodup_cons.mp hnd).1
    have hndr : rest.Nodup := (List.nodup_cons.mp hnd).2
    simp only [getRemoteLoop, getRemoteSpec]
    by_cases hmem : node ∈ down
    · have hmem0 : node ∈ down0 := (hagree node (List.mem_cons_self _ _)).mp hmem
      rw [if_pos hmem, if_pos hmem0]
      exact ih hndr down down0 (fun n hn => hagree n (List.mem_cons_of_mem _ hn))
    · have hmem0 : node ∉ down0 := fun h0 =>
        hmem ((hagree node (List.mem_cons_self _ _)).mpr h0)
      rw [if_neg hmem, if_neg hmem0]
      rcases hdec : getTryNode rnet node 0 ra with d | _ | marked
      · exact ⟨rfl, rfl⟩
      · exact ⟨rfl, rfl⟩
      · have hagree2 : ∀ n ∈ rest,
            (n ∈ (if marked then addDown node down else down) ↔ n ∈ down0) := by
          intro n hn
          have hne : ¬ n = node := fun he => hnotin (he ▸ hn)
          cases marked
          · rw [if_neg Bool.false_ne_true]
            exact hagree n (List.mem_cons_of_mem _ hn)
          · rw [if_pos rfl, mem_addDown]
            constructor
            · rintro (h1 | h1)
              · exact (hagree n (List.mem_cons_of_mem _ hn)).mp h1
              · exact absurd h1 hne
            · intro h1
              exact Or.inl ((hagree n (List.mem_cons_of_mem _ hn)).mpr h1)
        have h := ih hndr _ down0 hagree2
        exact ⟨h.1, by dsimp only; rw [h.2]⟩

/-- Every peer the spec model contacts is outside the down set. -/
theorem getRemoteSpec_contacted_notDown {F : Type} (dec : PyStr → NodeGetOut F)
    (down : List PyStr) :
    ∀ nodes, ∀ n ∈ (getRemoteSpec dec down nodes).2, n ∉ down := by
  intro nodes
  induction nodes with
  | nil => intro n hn; exact absurd hn (List.not_mem_nil n)
  | cons node rest ih =>
    intro n hn
    rw [getRemoteSpec] at hn
    by_cases hmem : node ∈ down
    · rw [if_pos hmem] at hn
      exact ih n hn
    · rw [if_neg hmem] at hn
      rcases hdec : dec node with d | _ | marked <;> rw [hdec] at hn
      · rcases List.mem_singleton.mp hn with h1
        rw [h1]; exact hmem
      · rcases List.mem_singleton.mp hn with h1
        rw [h1]; exact hmem
      · rcases List.mem_cons.mp hn with h1 | h1
        · rw [h1]; exact hmem
        · exact ih n h1

/-- The spec model contacts peers in list order (its trace is a sublist
of the configured peer list). -/
theorem getRemoteSpec_contacted_sublist {F : Type} (dec : PyStr → NodeGetOut F)
    (down : List PyStr) :
    ∀ nodes, List.Sublist (getRemoteSpec dec down nodes).2 nodes := by
  intro nodes
  induction nodes with
  | nil => exact List.Sublist.refl []
  | cons node rest ih =>
    rw [getRemoteSpec]
    by_cases hmem : node ∈ down
    · rw [if_pos hmem]
      exact List.Sublist.cons node ih
    · rw [if_neg hmem]
      rcases dec node with d | _ | marked
      · exact List.Sublist.cons₂ node (List.nil_sublist rest)
      · exact List.Sublist.cons₂ node (List.nil_sublist rest)
      · exact List.Sublist.cons₂ node ih

/-- C8: `get_remote` behaves exactly as specified — it visits the
configured peers in list order, skipping every peer currently in the
down set (the contact trace is a sublist of the peer list and avoids the
down set); it returns the parsed value at the first peer answering 200
and not-found at the first peer answering 404, contacting no later peer
in either case; a peer whose retries are exhausted by errors advances to
the next peer; and when every peer is skipped or fails it returns
not-found. Stated as: the embedded `get_remote`'s return value and
contact trace coincide with those of the spec-modelled peer walk over
the per-peer decision oracle, for every read network behavior and every
client state with a duplicate-free peer list. -/
theorem claim_C8_get_remote_order {F J P : Type} (rnet : PyStr → Nat → GetResp F)
    (c : DistClientState F J P) (hnd : c.nodes.Nodup) :
    (DistClient.getRemote rnet c).1 =
      (getRemoteSpec (fun n => getTryNode rnet n 0 c.retryAttempts)
        c.nodesDown c.nodes).1 ∧
    (getRemoteLoop rnet c.retryAttempts c.nodes c.nodesDown).contacted =
      (getRemoteSpec (fun n => getTryNode rnet n 0 c.retryAttempts)
        c.nodesDown c.nodes).2 ∧
    List.Sublist
      (getRemoteSpec (fun n => getTryNode rnet n 0 c.retryAttempts)
        c.nodesDown c.nodes).2 c.nodes ∧
    (∀ n ∈ (getRemoteSpec (fun n => getTryNode rnet n 0 c.retryAttempts)
        c.nodesDown c.nodes).2, n ∉ c.nodesDown) := by
  have h := getRemoteLoop_eq_spec rnet c.retryAttempts c.nodes hnd
    c.nodesDown c.nodesDown (fun n _ => Iff.rfl)
  exact ⟨h.1, h.2, getRemoteSpec_contacted_sublist _ _ _,
    getRemoteSpec_contacted_notDown _ _ _⟩

/-- The value dictionary served by the witness's healthy peer. -/
def wDict : ValueDict Unit :=
  { value := SerForm.s "v".toList
    type := "StringValue".toList
    createdAt := 0
    ttl := none
    metadata := [] }

/-- A read network where peer 2 answers 200 with `wDict` and every other
peer raises a connection error. -/
def wRnet : PyStr → Nat → GetResp Unit := fun node _ =>
  if node = "http://p2".toList then GetResp.rok wDict else GetResp.rexc

/-- A client configured with three peers, the first of which is down. -/
def wGetClient : DistClientState Unit Unit Unit where
  nodes := ["http://p1".toList, "http://p2".toList, "http://p3".toList]
  retryInterval := 1
  retryAttempts := 2
  asyncUpdates := false
  maxQueueSize := 0
  queue := []
  propagationsSent := 0
  propagationsFailed := 0
  readsSent := 0
  readsFailed := 0
  nodesDown := ["http://p1".toList]

/-- C8 witness: on the concrete client — peers `[P1(down), P2(200 with
`wDict`), P3]` — the theorem applies, and concretely the call returns
`wDict` having contacted exactly P2: P1 only hit the down-check and P3
was never reached. -/
theorem claim_C8_get_remote_order_witness :
    wGetClient.nodes.Nodup ∧
    ((DistClient.getRemote wRnet wGetClient).1 =
        (getRemoteSpec (fun n => getTryNode wRnet n 0 wGetClient.retryAttempts)
          wGetClient.nodesDown wGetClient.nodes).1 ∧
      (getRemoteLoop wRnet wGetClient.retryAttempts wGetClient.nodes
          wGetClient.nodesDown).contacted =
        (getRemoteSpec (fun n => getTryNode wRnet n 0 wGetClient.retryAttempts)
          wGetClient.nodesDown wGetClient.nodes).2) ∧
    (DistClient.getRemote wRnet wGetClient).1 = some wDict ∧
    (getRemoteLoop wRnet wGetClient.retryAttempts wGetClient.nodes
        wGetClient.nodesDown).contacted = ["http://p2".toList] :=
  ⟨by decide,
    (fun h => ⟨h.1, h.2.1⟩)
      (claim_C8_get_remote_order wRnet wGetClient (by decide)),
    rfl, rfl⟩

/-! ### The distributed server (`llamakv.distributed.server.DistributedServer`)

Only the `/propagate` route matters for the propagation claims. A Flask
request is abstracted to the two header values the handler reads and the
parsed JSON body. -/

/-- Server configuration read by the `/propagate` handler: the node id,
the optional bearer token and the propagation switch. -/
structure ServerCfg where
  nodeId : PyStr
  authToken : Option PyStr
  allowPropagation : Bool

/-- The `node_id or f"node-\x7bid(self)\x7d"` default of
`DistributedServer.__init__`: a missing or empty (falsy) configured id is
replaced by the generated `node-...` name. -/
def mkNodeId (configured : Option PyStr) (generated : PyStr) : PyStr :=
  match configured with
  | none => generated
  | some s => if s = [] then generated else s

/-- The generated name is nonempty (it starts with `node-`), so a
server's node id is never the empty string. -/
theorem mkNodeId_ne_nil (configured : Option PyStr) (generated : PyStr)
    (hg : generated ≠ []) : mkNodeId configured generated ≠ [] := by
  unfold mkNodeId
  cases configured with
  | none => exact hg
  | some s =>
    dsimp only
    by_cases h : s = []
    · rw [if_pos h]; exact hg
    · rw [if_neg h]; exact h

/-- Python `str.split(sep)` for a one-character separator. -/
def pySplitChar (sep : Char) : PyStr → List PyStr
  | [] => [[]]
  | c :: rest =>
    match pySplitChar sep rest with
    | [] => [[]]
    | chunk :: chunks =>
      if c = sep then [] :: chunk :: chunks
      else (c :: chunk) :: chunks

/-- Embedding of `DistributedServer._authenticate`: no configured token
accepts everything; otherwise the `Authorization` header must be present
and truthy, start with `"Bearer "`, and carry the configured token as
the second space-separated chunk. -/
def authenticate (cfg : ServerCfg) (authHeader : Option PyStr) : Bool :=
  match cfg.authToken with
  | none => true
  | some tok =>
    match authHeader with
    | none => false
    | some h =>
      if decide (¬ h = []) && List.isPrefixOf "Bearer ".toList h then
        decide ((pySplitChar ' ' h).getD 1 [] = tok)
      else false

/-- The handler's HTTP outcomes: 200 (with its `skipped` flag), 401,
403, 400 and 500. -/
inductive ServerResp where
  | ok (skipped : Bool)
  | unauthorized
  | forbidden
  | invalid
  | err
deriving DecidableEq

/-- The parsed JSON body of a `/propagate` request as the handler reads
it: the `operation` string and the optional `key` and `value` members
(indexing a missing member raises `KeyError`, caught by the handler's
`except` into a 500). -/
structure PropBody (F : Type) where
  operation : PyStr
  key : Option PyStr
  value : Option (ValueDict F)

/-- The `value_type` dispatch of the handler's `set` branch. -/
def classOfTag (t : PyStr) : Option ValueClass :=
  if t = "StringValue".toList then some .stringV
  else if t = "IntValue".toList then some .intV
  else if t = "FloatValue".toList then some .floatV
  else if t = "BytesValue".toList then some .bytesV
  else if t = "JsonValue".toList then some .jsonV
  else if t = "PickleValue".toList then some .pickleV
  else none

/-- The operation block of the `/propagate` handler (the body of its
`try`): a received mutation is applied through the plain `KVStore` API —
`store.set` with the reconstructed `Value` instance (which the store's
auto-detection will wrap), `store.delete`, or `store.clear`. -/
def processProp {F J P : Type} (L : PyLibs F J P) (pnet : PyStr → Nat → PropResp)
    (st : StoreState F J P) (body : Option (PropBody F)) (now : Int) :
    ServerResp × StoreState F J P :=
  match body with
  | none => (.invalid, st)
  | some b =>
    if b.operation = "set".toList then
      match b.key, b.value with
      | some ks, some vd =>
        match classOfTag vd.type with
        | none => (.invalid, st)
        | some cls =>
          match fromDict L cls vd with
          | none => (.err, st)
          | some vobj =>
            match KVStore.set L pnet st (Key.fromString ks)
                (.inValue vobj) none [] now with
            | none => (.err, st)
            | some st2 => (.ok false, st2)
      | _, _ => (.err, st)
    else if b.operation = "delete".toList then
      match b.key with
      | none => (.err, st)
      | some ks => (.ok false, (KVStore.delete pnet st (Key.fromString ks)).2)
    else if b.operation = "clear".toList then
      (.ok false, KVStore.clear pnet st)
    else (.invalid, st)

/-- Embedding of the `/propagate` route handler: authentication, the
propagation switch, the loop check against the source header (a missing
or empty header is falsy and never skips), then the operation block. -/
def propagateHandler {F J P : Type} (L : PyLibs F J P) (pnet : PyStr → Nat → PropResp)
    (cfg : ServerCfg) (st : StoreState F J P) (authHeader source : Option PyStr)
    (body : Option (PropBody F)) (now : Int) : ServerResp × StoreState F J P :=
  if authenticate cfg authHeader = false then (.unauthorized, st)
  else if cfg.allowPropagation = false then (.forbidden, st)
  else if (match source with
      | none => false
      | some s => decide (¬ s = []) && decide (s = cfg.nodeId)) = true then
    (.ok true, st)
  else processProp L pnet st body now

/-- With no distributed client attached, `KVStore.delete` never consults
the propagation network (its outcome is network-independent) and the
resulting store still has no client. -/
theorem storeDelete_nodist {F J P : Type} (pnet pnet' : PyStr → Nat → PropResp)
    (st : StoreState F J P) (k : Key) (hd : st.distributed = none) :
    KVStore.delete pnet st k = KVStore.delete pnet' st k ∧
      (KVStore.delete pnet st k).2.distributed = none := by
  simp only [KVStore.delete]
  rw [hd]
  exact ⟨rfl, rfl⟩

/-- The purge scan preserves network-independence and the absence of a
distributed client. -/
theorem purgeLoop_nodist {F J P : Type} (pnet pnet' : PyStr → Nat → PropResp)
    (now : Int) :
    ∀ (ks : List Key) (st : StoreState F J P) (count : Nat),
      st.distributed = none →
      purgeLoop pnet now ks st count = purgeLoop pnet' now ks st count ∧
        (purgeLoop pnet now ks st count).1.distributed = none := by
  intro ks
  induction ks with
  | nil => intro st count hd; exact ⟨rfl, hd⟩
  | cons k rest ih =>
    intro st count hd
    simp only [purgeLoop]
    rcases hg : (MemoryBackend.get st.backend k).1 with _ | v
    · exact ih _ count hd
    · dsimp only
      by_cases hexp : v.isExpired now = true
      · rw [if_pos hexp, if_pos hexp]
        have hdel := storeDelete_nodist pnet pnet'
          { st with backend := (MemoryBackend.get st.backend k).2 } k hd
        have h1 := ih (KVStore.delete pnet
          { st with backend := (MemoryBackend.get st.backend k).2 } k).2 (count + 1) hdel.2
        refine ⟨?_, h1.2⟩
        rw [← hdel.1]
        exact h1.1
      · rw [if_neg hexp, if_neg hexp]
        exact ih _ count hd

/-- The lazy purge preserves network-independence and the absence of a
distributed client. -/
theorem maybePurge_nodist {F J P : Type} (pnet pnet' : PyStr → Nat → PropResp)
    (st : StoreState F J P) (now : Int) (hd : st.distributed = none) :
    KVStore.maybePurge pnet st now = KVStore.maybePurge pnet' st now ∧
      (KVStore.maybePurge pnet st now).distributed = none := by
  simp only [KVStore.maybePurge, KVStore.purgeExpired]
  by_cases hc : (st.autoPurge && decide (now - st.lastPurge ≥ st.purgeInterval)) = true
  · rw [if_pos hc, if_pos hc]
    have h := purgeLoop_nodist pnet pnet' now (MemoryBackend.keys st.backend) st 0 hd
    refine ⟨?_, ?_⟩
    · rw [h.1]
    · dsimp only
      exact h.2
  · rw [if_neg hc, if_neg hc]
    exact ⟨rfl, hd⟩

/-- With no distributed client attached, `KVStore.set` never consults the
propagation network and any store it returns still has no client. -/
theorem storeSet_nodist {F J P : Type} (L : PyLibs F J P)
    (pnet pnet' : PyStr → Nat → PropResp) (st : StoreState F J P) (k : Key)
    (inp : SetInput F J P) (ttl : Option Int) (md : List (PyStr × PyStr)) (now : Int)
    (hd : st.distributed = none) :
    KVStore.set L pnet st k inp ttl md now = KVStore.set L pnet' st k inp ttl md now ∧
      ∀ st2, KVStore.set L pnet st k inp ttl md now = some st2 →
        st2.distributed = none := by
  have hm := maybePurge_nodist pnet pnet' st now hd
  constructor
  · simp only [KVStore.set]
    rw [← hm.1]
    rw [hm.2]
  · intro st2 h
    simp only [KVStore.set] at h
    rw [hm.2] at h
    dsimp only at h
    split at h
    · exact absurd h (by simp)
    · have h2 := Option.some.inj h
      rw [← h2]

/-- With no distributed client attached, `KVStore.clear` never consults
the propagation network and the cleared store still has no client. -/
theorem storeClear_nodist {F J P : Type} (pnet pnet' : PyStr → Nat → PropResp)
    (st : StoreState F J P) (hd : st.distributed = none) :
    KVStore.clear pnet st = KVStore.clear pnet' st ∧
      (KVStore.clear pnet st).distributed = none := by
  simp only [KVStore.clear]
  rw [hd]
  exact ⟨rfl, rfl⟩

/-- With no distributed client attached, the handler's operation block
applies the received mutation without consulting the propagation network
and leaves the store without a client. -/
theorem processProp_nodist {F J P : Type} (L : PyLibs F J P)
    (pnet pnet' : PyStr → Nat → PropResp) (st : StoreState F J P)
    (body : Option (PropBody F)) (now : Int) (hd : st.distributed = none) :
    processProp L pnet st body now = processProp L pnet' st body now ∧
      (processProp L pnet st body now).2.distributed = none := by
  match body with
  | none => exact ⟨rfl, hd⟩
  | some b =>
    simp only [processProp]
    by_cases hset : b.operation = "set".toList
    · rw [if_pos hset, if_pos hset]
      rcases hk : b.key with _ | ks
      · exact ⟨rfl, hd⟩
      · rcases hv : b.value with _ | vd
        · exact ⟨rfl, hd⟩
        · dsimp only
          rcases hcls : classOfTag vd.type with _ | cls
          · exact ⟨rfl, hd⟩
          · dsimp only
            rcases hfd : fromDict L cls vd with _ | vobj
            · exact ⟨rfl, hd⟩
            · dsimp only
              have hs := storeSet_nodist L pnet pnet' st (Key.fromString ks)
                (.inValue vobj) none [] now hd
              rw [← hs.1]
              rcases hq : KVStore.set L pnet st (Key.fromString ks)
                  (.inValue vobj) none [] now with _ | st2
              · exact ⟨rfl, hd⟩
              · exact ⟨rfl, hs.2 st2 hq⟩
    · rw [if_neg hset, if_neg hset]
      by_cases hdel : b.operation = "delete".toList
      · rw [if_pos hdel, if_pos hdel]
        rcases hk : b.key with _ | ks
        · exact ⟨rfl, hd⟩
        · dsimp only
          have hds := storeDelete_nodist pnet pnet' st (Key.fromString ks) hd
          rw [hds.1]
          exact ⟨rfl, by rw [← hds.1]; exact hds.2⟩
      · rw [if_neg hdel, if_neg hdel]
        by_cases hclr : b.operation = "clear".toList
        · rw [if_pos hclr, if_pos hclr]
          have hcs := storeClear_nodist pnet pnet' st hd
          rw [hcs.1]
          exact ⟨rfl, by rw [← hcs.1]; exact hcs.2⟩
        · rw [if_neg hclr, if_neg hclr]
          exact ⟨rfl, hd⟩

/-- A server configuration with no auth token and propagation allowed. -/
def wCfg4 : ServerCfg :=
  { nodeId := "n1".toList
    authToken := none
    allowPropagation := true }

/-- A propagated `delete` of key "x". -/
def wBody4 : PropBody Unit :=
  { operation := "delete".toList
    key := some "x".toList
    value := none }

/-- C4 counterexample: the claim says a received propagated mutation is
never forwarded on. But the handler applies it through the plain
`KVStore` API, which re-propagates whenever the store has a distributed
client attached: on `wStore` — whose client has an empty async update
queue — a received `delete` of "x" is accepted (200), applied (the key
leaves the backend), and the very same operation is enqueued on the
store's own client for forwarding to its peers (the queue grows from 0
to 1 entries). -/
theorem claim_C4_counterexample :
    wStore.distributed = some wClient ∧ wClient.queue = [] ∧
    (propagateHandler wLibs wPnet wCfg4 wStore none (some "n2".toList)
        (some wBody4) 0).1 = ServerResp.ok false ∧
    lookupKey (wKey "x") (propagateHandler wLibs wPnet wCfg4 wStore none
        (some "n2".toList) (some wBody4) 0).2.backend.store = none ∧
    Option.map (fun c => c.queue.length)
      (propagateHandler wLibs wPnet wCfg4 wStore none (some "n2".toList)
        (some wBody4) 0).2.distributed = some 1 :=
  ⟨rfl, rfl, rfl, rfl, rfl⟩

/-- C4 (amended): single-hop propagation holds exactly when the server's
local store has no distributed client attached — which is how every
store handed to a `DistributedServer` in this repository is wired. For
such a store, handling any `/propagate` request consults the propagation
network not at all (the outcome is identical under every network
behavior, so no forwarding POST is issued) and leaves the store still
without a client or update queue, so nothing can be forwarded later
either. The unqualified original claim is refuted by
`claim_C4_counterexample`: with a client attached, the handler's call
into the plain store API re-enqueues the received mutation for its own
peers. -/
theorem claim_C4_single_hop {F J P : Type} (L : PyLibs F J P)
    (pnet pnet' : PyStr → Nat → PropResp) (cfg : ServerCfg) (st : StoreState F J P)
    (authHeader source : Option PyStr) (body : Option (PropBody F)) (now : Int)
    (hd : st.distributed = none) :
    propagateHandler L pnet cfg st authHeader source body now =
      propagateHandler L pnet' cfg st authHeader source body now ∧
    (propagateHandler L pnet cfg st authHeader source body now).2.distributed
      = none := by
  simp only [propagateHandler]
  by_cases hauth : authenticate cfg authHeader = false
  · rw [if_pos hauth, if_pos hauth]
    exact ⟨rfl, hd⟩
  · rw [if_neg hauth, if_neg hauth]
    by_cases hallow : cfg.allowPropagation = false
    · rw [if_pos hallow, if_pos hallow]
      exact ⟨rfl, hd⟩
    · rw [if_neg hallow, if_neg hallow]
      by_cases hloop : (match source with
          | none => false
          | some s => decide (¬ s = []) && decide (s = cfg.nodeId)) = true
      · rw [if_pos hloop, if_pos hloop]
        exact ⟨rfl, hd⟩
      · rw [if_neg hloop, if_neg hloop]
        exact processProp_nodist L pnet pnet' st body now hd

/-- The witness store: `wStore` with no distributed client attached. -/
def wStoreN : StoreState Unit Unit Unit :=
  { wStore with distributed := none }

/-- A propagation network where every POST raises, used to contrast with
`wPnet` (where every POST succeeds). -/
def wPnetBad : PyStr → Nat → PropResp := fun _ _ => PropResp.pexc

/-- C4 witness: on the clientless store the handler's outcome for the
received `delete` is the same whether every propagation POST would
succeed or every one would raise, and the store still has no client
afterwards. -/
theorem claim_C4_single_hop_witness :
    wStoreN.distributed = none ∧
    (propagateHandler wLibs wPnet wCfg4 wStoreN none (some "n2".toList)
        (some wBody4) 0 =
      propagateHandler wLibs wPnetBad wCfg4 wStoreN none (some "n2".toList)
        (some wBody4) 0 ∧
    (propagateHandler wLibs wPnet wCfg4 wStoreN none (some "n2".toList)
        (some wBody4) 0).2.distributed = none) :=
  ⟨rfl, claim_C4_single_hop wLibs wPnet wPnetBad wCfg4 wStoreN none
    (some "n2".toList) (some wBody4) 0 rfl⟩

/-- C5: a `/propagate` request whose source header equals the server's
own node id is answered 200 with `skipped := true` and no mutation is
applied — the store afterwards is the very store before. Stated for
requests the handler accepts at all (authenticated, propagation
allowed); the node id is never empty by construction
(`mkNodeId_ne_nil`), so the header's truthiness test cannot defeat the
loop check. -/
theorem claim_C5_loop_skip {F J P : Type} (L : PyLibs F J P)
    (pnet : PyStr → Nat → PropResp) (cfg : ServerCfg) (st : StoreState F J P)
    (authHeader : Option PyStr) (body : Option (PropBody F)) (now : Int)
    (hauth : authenticate cfg authHeader = true)
    (hallow : cfg.allowPropagation = true)
    (hnid : cfg.nodeId ≠ []) :
    propagateHandler L pnet cfg st authHeader (some cfg.nodeId) body now =
      (ServerResp.ok true, st) := by
  rw [propagateHandler, hauth, hallow]
  rw [if_neg (by decide)]
  rw [if_neg (by decide)]
  rw [if_pos (by simp [hnid])]

/-- The server configuration for the C5 witness: bearer-token auth and
propagation allowed. -/
def wCfg5 : ServerCfg :=
  { nodeId := mkNodeId (some "n1".toList) "node-7".toList
    authToken := some "tok".toList
    allowPropagation := true }

/-- C5 witness: an authenticated request carrying the server's own node
id "n1" in the source header — even one whose body asks to delete the
present key "x" — is answered `skipped := true` and leaves `wStore`
untouched. -/
theorem claim_C5_loop_skip_witness :
    authenticate wCfg5 (some "Bearer tok".toList) = true ∧
    wCfg5.allowPropagation = true ∧
    wCfg5.nodeId ≠ [] ∧
    propagateHandler wLibs wPnet wCfg5 wStore (some "Bearer tok".toList)
      (some wCfg5.nodeId) (some wBody4) 0 = (ServerResp.ok true, wStore) :=
  ⟨by decide, rfl, by decide,
    claim_C5_loop_skip wLibs wPnet wCfg5 wStore (some "Bearer tok".toList)
      (some wBody4) 0 (by decide) rfl (by decide)⟩
